import Mathlib

set_option linter.unusedVariables false

/-! Shallow embedding of the todo-list position/hierarchy engine: the
server-side database module (createTodo, updateTodo, updateTodoPositions,
deleteTodo, deleteList, compactPositionsTx) together with the route-level
validation of PATCH /api/todos/positions.  Machine integers of the store are
modelled as Nat (ids, list ids) and Int (positions); the coercion corners of
the dynamic number type that the claims touch are modelled by the JsNum
type below. -/

/-- A row of the todos table. -/
structure Todo where
  id : Nat
  text : String
  completed : Bool
  isEmpty : Bool
  parentId : Option Nat
  isIndented : Bool
  position : Int
  listId : Nat
deriving Repr, DecidableEq

/-- A row of the lists table (the fields the engine reads). -/
structure ListRow where
  id : Nat
  name : String
deriving Repr, DecidableEq

/-- The store: the todos and lists tables plus settings.current_list_id. -/
structure Store where
  todos : List Todo
  lists : List ListRow
  currentListId : Option Nat
deriving Repr, DecidableEq

/-- Failure of an engine transaction: a thrown Error with its message, or
divergence of an unbounded loop (the embedding makes fuel explicit where the
source loops without a bound). -/
inductive EngineErr where
  | err (msg : String)
  | diverge
deriving Repr, DecidableEq

deriving instance DecidableEq for Except

/-- SELECT by primary key: the row of the todos table with the given id. -/
def findTodo (s : Store) (i : Nat) : Option Todo :=
  s.todos.find? (fun t => t.id == i)

/-- The stored parent map: id to parent_id, none for missing rows or a null
parent. -/
def pmap (s : Store) : Nat → Option Nat :=
  fun i => (findTodo s i).bind (fun t => t.parentId)

/-- UPDATE todos SET ... WHERE id=? -/
def updRow (s : Store) (i : Nat) (f : Todo → Todo) : Store :=
  { s with todos := s.todos.map (fun t => if t.id == i then f t else t) }

/-- The ORDER BY position ASC, id ASC comparison used by compactPositionsTx. -/
def posLe (a b : Todo) : Bool :=
  decide (a.position < b.position) ||
    (decide (a.position = b.position) && decide (a.id ≤ b.id))

/-- Insert one row into a list sorted by `posLe`. -/
def insertPos (r : Todo) : List Todo → List Todo
  | [] => [r]
  | x :: xs => if posLe r x then r :: x :: xs else x :: insertPos r xs

/-- Sort rows by `posLe` (the ORDER BY of compactPositionsTx). -/
def sortPos : List Todo → List Todo
  | [] => []
  | x :: xs => insertPos x (sortPos xs)

/-- SELECT ... FROM todos WHERE list_id=? -/
def listItems (s : Store) (l : Nat) : List Todo :=
  s.todos.filter (fun t => t.listId == l)

/-- The update loop of compactPositionsTx: assign positions k, k+1, ... to the
given rows in order, each by an UPDATE ... WHERE id=?. -/
def applyPositions : Store → List Todo → Int → Store
  | s, [], _ => s
  | s, r :: rest, k =>
      applyPositions (updRow s r.id (fun t => { t with position := k })) rest (k + 1)

/-- compactPositionsTx: renumber the positions of one list to 1..N following
the current ORDER BY position ASC, id ASC order. -/
def compactPositionsTx (s : Store) (l : Nat) : Store :=
  applyPositions s (sortPos (listItems s l)) 1

/-- Does the parent chain of row `t` reach `tid`, within `fuel` steps?  This
is membership of `t` in the recursive CTE rooted at `tid` that deleteTodo
uses to collect descendants. -/
def isDescAux (s : Store) (tid : Nat) (t : Todo) : Nat → Bool
  | 0 => false
  | fuel + 1 =>
    match t.parentId with
    | none => false
    | some p => p == tid ||
        (match findTodo s p with
         | none => false
         | some pt => isDescAux s tid pt fuel)

/-- Ids of all transitive descendants of `tid` (the CTE result minus the
root itself). -/
def descendantIds (s : Store) (tid : Nat) : List Nat :=
  (s.todos.filter (fun t => isDescAux s tid t (s.todos.length + 1))).map (fun t => t.id)

/-- DELETE FROM todos WHERE id IN (...). -/
def removeTodos (s : Store) (ids : List Nat) : Store :=
  { s with todos := s.todos.filter (fun t => !(ids.contains t.id)) }

/-- The foreign-key action of parent_id REFERENCES todos(id) ON DELETE SET
NULL: surviving rows whose parent row was deleted get a null parent_id (the
FK action does not touch is_indented). -/
def fkNullParents (s : Store) (ids : List Nat) : Store :=
  { s with todos := s.todos.map (fun t =>
      match t.parentId with
      | some p => if ids.contains p then { t with parentId := none } else t
      | none => t) }

/-- Result shape of deleteTodo. -/
structure DeleteOut where
  deletedIds : List Nat
  cascaded : Bool
  listId : Nat
  liftedIds : List Nat
deriving Repr, DecidableEq

/-- The lift loop of the non-cascade delete: each descendant row gets a null
parent and a cleared indent flag, one UPDATE per id. -/
def liftAll (s : Store) (ds : List Nat) : Store :=
  ds.foldl
    (fun st d => updRow st d (fun t => { t with parentId := none, isIndented := false })) s

/-- deleteTodo(id, {cascade}): the transaction body.  The second component is
the state at exit (the throw point on error); the `runOp` wrapper below
applies the rollback of db.transaction. -/
def deleteTodo (tid : Nat) (cascade : Bool) (s : Store) :
    Except EngineErr DeleteOut × Store :=
  match findTodo s tid with
  | none => (.error (.err "Todo not found"), s)
  | some target =>
    let l := target.listId
    let desc := descendantIds s tid
    if cascade then
      let dels := tid :: desc
      let s1 := fkNullParents (removeTodos s dels) dels
      let s2 := compactPositionsTx s1 l
      (.ok ⟨dels, true, l, []⟩, s2)
    else
      let s1 := liftAll s desc
      let s2 := fkNullParents (removeTodos s1 [tid]) [tid]
      let s3 := compactPositionsTx s2 l
      (.ok ⟨[tid], false, l, desc⟩, s3)

/-- Outcome of coercing the supplied position with Number(...): a finite
value, NaN, or a signed infinity. -/
inductive JsNum where
  | num (v : Int)
  | nan
  | posInf
  | negInf
deriving Repr, DecidableEq

/-- Falsiness of a number: `!x` is true exactly for 0 and NaN. -/
def jsFalsy : JsNum → Bool
  | .num v => v == 0
  | .nan => true
  | .posInf => false
  | .negInf => false

/-- The comparison `x <= 0`: false for NaN, true for negative infinity. -/
def jsLeZero : JsNum → Bool
  | .num v => decide (v ≤ 0)
  | .nan => false
  | .posInf => false
  | .negInf => true

/-- The createTodo guard `!position || position <= 0`: when true, the supplied
position is discarded and max(position)+1 is assigned.  An absent position
coerces to NaN. -/
def createPosFallback (p : Option JsNum) : Bool :=
  jsFalsy (p.getD .nan) || jsLeZero (p.getD .nan)

/-- Input payload of createTodo (fields after Number/String coercion; the
fallback guard for positions outside Int is modelled by createPosFallback). -/
structure CreateIn where
  text : Option String
  completed : Bool
  isEmpty : Bool
  parentId : Option Nat
  position : Option Int
  listId : Option Nat
deriving Repr, DecidableEq

/-- Fallback list resolution: settings.current_list_id, or 1 when that is
null or 0. -/
def resolveListFallback (s : Store) : Nat :=
  match s.currentListId with
  | some c => if c == 0 then 1 else c
  | none => 1

/-- createTodo list resolution: a falsy Number(payload.listId) (absent or 0)
falls back to the current list. -/
def resolveListId (inp : CreateIn) (s : Store) : Nat :=
  match inp.listId with
  | some l => if l == 0 then resolveListFallback s else l
  | none => resolveListFallback s

/-- COALESCE(MAX(position), 0) over one list. -/
def maxPosOf (s : Store) (l : Nat) : Int :=
  ((listItems s l).map (fun t => t.position)).foldr max 0

/-- SQLite rowid assignment: an INSERT without an explicit id receives one
more than the largest current id. -/
def maxTodoId (s : Store) : Nat :=
  (s.todos.map (fun t => t.id)).foldr max 0

/-- The check `text.trim() === ''` of createTodo: every character of the
string is whitespace (only the emptiness of the trimmed string is ever
used by the source). -/
def trimEmpty (t : String) : Bool :=
  t.toList.all (fun c => c == ' ' || c == '\t' || c == '\n' || c == '\r')

/-- The effective position of createTodo: the supplied value unless the
fallback guard fires, in which case max(position)+1 of the resolved list. -/
def createPosEff (inp : CreateIn) (s : Store) : Int :=
  match inp.position with
  | some v =>
    if createPosFallback (some (.num v)) then maxPosOf s (resolveListId inp s) + 1
    else v
  | none => maxPosOf s (resolveListId inp s) + 1

/-- createTodo: the transaction body. -/
def createTodo (inp : CreateIn) (s : Store) : Except EngineErr Todo × Store :=
  let l := resolveListId inp s
  let text := inp.text.getD ""
  let isEmptyEff := inp.isEmpty || trimEmpty text
  let parentCheck : Except EngineErr Unit :=
    match inp.parentId with
    | none => .ok ()
    | some pid =>
      match findTodo s pid with
      | none => .error (.err "Parent todo not found")
      | some p =>
        if p.listId == l then .ok () else .error (.err "Parent must be in the same list")
  match parentCheck with
  | .error e => (.error e, s)
  | .ok _ =>
    let pos : Int := createPosEff inp s
    if inp.parentId.isSome && pos == 1 then
      (.error (.err "Cannot indent the first item in the list"), s)
    else if (s.lists.find? (fun r => r.id == l)).isNone then
      (.error (.err "FOREIGN KEY constraint failed"), s)
    else
      let t : Todo :=
        ⟨maxTodoId s + 1, text, inp.completed, isEmptyEff, inp.parentId,
          inp.parentId.isSome, pos, l⟩
      (.ok t, { s with todos := s.todos ++ [t] })

/-- The ancestor walk of updateTodo (its cycle guard): follow the stored
parent chain from `i`; `some true` means `tid` was found as a parent (cycle
error thrown), `some false` means the loop exited at a null or dangling
parent, `none` means the fuel ran out while the source loop would still be
running. -/
def ancWalk (m : Nat → Option Nat) (tid : Nat) : Nat → Nat → Option Bool
  | 0, _ => none
  | fuel + 1, i =>
    match m i with
    | none => some false
    | some p => if p == tid then some true else ancWalk m tid fuel p

/-- The walk as updateTodo performs it against store `s`, starting from the
prospective parent, with the fuel that suffices on acyclic stores. -/
def ancestorWalk (s : Store) (tid start : Nat) : Option Bool :=
  ancWalk (pmap s) tid (s.todos.length + 2) start

/-- Patch accepted by updateTodo.  A doubled Option distinguishes an absent
field from an explicit null.  The listId field mirrors that a patch may carry
one; updateTodo never reads it. -/
structure UpdatePatch where
  text : Option String
  completed : Option Bool
  isEmpty : Option Bool
  parentId : Option (Option Nat)
  isIndented : Option Bool
  position : Option (Option Int)
  listId : Option Nat
deriving Repr, DecidableEq

/-- The patch with no field present. -/
def emptyPatch : UpdatePatch :=
  ⟨none, none, none, none, none, none, none⟩

/-- Is the dynamic SET clause of updateTodo nonempty?  A present null
position contributes nothing. -/
def patchHasSet (p : UpdatePatch) : Bool :=
  p.text.isSome || p.completed.isSome || p.isEmpty.isSome || p.parentId.isSome ||
    p.isIndented.isSome ||
    (match p.position with
     | some (some _) => true
     | _ => false)

/-- Apply the SET clause of updateTodo to one row. -/
def applyPatch (p : UpdatePatch) (targetParentId : Option Nat) (t : Todo) : Todo :=
  let t1 := match p.text with | some v => { t with text := v } | none => t
  let t2 := match p.completed with | some v => { t1 with completed := v } | none => t1
  let t3 := match p.isEmpty with | some v => { t2 with isEmpty := v } | none => t2
  let t4 := match p.parentId with | some v => { t3 with parentId := v } | none => t3
  let t5 := if p.parentId.isSome || p.isIndented.isSome
    then { t4 with isIndented := targetParentId.isSome } else t4
  match p.position with
  | some (some v) => { t5 with position := v }
  | _ => t5

/-- updateTodo: the transaction body. -/
def updateTodo (tid : Nat) (p : UpdatePatch) (s : Store) :
    Except EngineErr Todo × Store :=
  match findTodo s tid with
  | none => (.error (.err "Todo not found"), s)
  | some row =>
    let targetParentId : Option Nat :=
      match p.parentId with
      | some v => v
      | none => row.parentId
    let targetPosition : Int :=
      match p.position with
      | some (some v) => v
      | some none => 0
      | none => row.position
    let parentCheck : Except EngineErr Unit :=
      match targetParentId with
      | none => .ok ()
      | some tp =>
        if tp == tid then .error (.err "Cannot set parent to self")
        else
          match findTodo s tp with
          | none => .error (.err "Parent todo not found")
          | some pr =>
            if pr.listId != row.listId then .error (.err "Parent must be in the same list")
            else
              match ancestorWalk s tid tp with
              | some true => .error (.err "Cannot create cyclic parent relationship")
              | some false => .ok ()
              | none => .error .diverge
    match parentCheck with
    | .error e => (.error e, s)
    | .ok _ =>
      if targetParentId.isSome && targetPosition == 1 then
        (.error (.err "Cannot indent the first item in the list"), s)
      else if !(patchHasSet p) then
        (.ok row, s)
      else
        let s1 := updRow s tid (applyPatch p targetParentId)
        match findTodo s1 tid with
        | some t1 => (.ok t1, s1)
        | none => (.error (.err "Todo not found"), s1)

/-- One entry of the bulk reposition payload (after Number coercion). -/
structure PosUpdate where
  id : Nat
  position : Int
  parentId : Option Nat
deriving Repr, DecidableEq

/-- Success summary of updateTodoPositions. -/
structure BulkOut where
  count : Nat
  listId : Nat
deriving Repr, DecidableEq

/-- Result of updateTodoPositions: the early empty-input return, or the
summary. -/
inductive BulkRes where
  | emptyInput
  | done (out : BulkOut)
deriving Repr, DecidableEq

/-- Map.set semantics of the proposed map: overwrite in place when the key is
present, else append. -/
def mapSet (l : List (Nat × Int × Option Nat)) (k : Nat) (v : Int × Option Nat) :
    List (Nat × Int × Option Nat) :=
  match l with
  | [] => [(k, v)]
  | e :: rest => if e.1 == k then (e.1, v) :: rest else e :: mapSet rest k v

/-- Map.get of the proposed map. -/
def mapGet (l : List (Nat × Int × Option Nat)) (k : Nat) : Option (Int × Option Nat) :=
  (l.find? (fun e => e.1 == k)).map (fun e => e.2)

/-- The first validation loop of updateTodoPositions: each entry must name an
existing row of the inferred list and must not be its own parent; the
proposed map accumulates in insertion order. -/
def buildProposed (s : Store) (listId : Nat) :
    List PosUpdate → List (Nat × Int × Option Nat) →
    Except EngineErr (List (Nat × Int × Option Nat))
  | [], acc => .ok acc
  | r :: rest, acc =>
    match findTodo s r.id with
    | none => .error (.err "Todo not found")
    | some meta =>
      if meta.listId != listId then
        .error (.err "All updates must be within the same list")
      else if r.parentId == some r.id then
        .error (.err "A todo cannot be its own parent")
      else
        buildProposed s listId rest (mapSet acc r.id (r.position, r.parentId))

/-- getParent of updateTodoPositions: the proposed parent when the id is in
the batch, else the stored one. -/
def mergedParent (s : Store) (prop : List (Nat × Int × Option Nat)) (i : Nat) :
    Option Nat :=
  match mapGet prop i with
  | some v => v.2
  | none => pmap s i

/-- The cycle check of updateTodoPositions: follow merged parents keeping a
seen set; `some true` is a revisit (cycle error), `some false` reached null,
`none` means fuel exhausted. -/
def seenWalk (m : Nat → Option Nat) : Nat → List Nat → Option Nat → Option Bool
  | 0, _, _ => none
  | _ + 1, _, none => some false
  | fuel + 1, seen, some c =>
    if seen.contains c then some true
    else seenWalk m fuel (c :: seen) (m c)

/-- The second validation loop of updateTodoPositions: each proposed non-null
parent must exist in the same list and must not close a cycle under the
merged mapping. -/
def validateParents (s : Store) (listId : Nat) (m : Nat → Option Nat) (fuel : Nat) :
    List (Nat × Int × Option Nat) → Except EngineErr Unit
  | [] => .ok ()
  | e :: rest =>
    match e.2.2 with
    | none => validateParents s listId m fuel rest
    | some pv =>
      match findTodo s pv with
      | none => .error (.err "Parent not found")
      | some meta =>
        if meta.listId != listId then .error (.err "Parent must be in the same list")
        else
          match seenWalk m fuel [e.1] (some pv) with
          | some true => .error (.err "Parent cycle detected")
          | some false => validateParents s listId m fuel rest
          | none => .error .diverge

/-- The write loop of updateTodoPositions: position, parent and derived
indent flag per proposed entry. -/
def applyBulk (s : Store) : List (Nat × Int × Option Nat) → Store
  | [] => s
  | e :: rest =>
    applyBulk
      (updRow s e.1 (fun t =>
        { t with position := e.2.1, parentId := e.2.2, isIndented := e.2.2.isSome }))
      rest

/-- updateTodoPositions: the engine transaction (the empty input returns
early before the transaction starts). -/
def updateTodoPositions (rows : List PosUpdate) (s : Store) :
    Except EngineErr BulkRes × Store :=
  match rows with
  | [] => (.ok .emptyInput, s)
  | r0 :: _ =>
    match findTodo s r0.id with
    | none => (.error (.err "First todo not found"), s)
    | some first =>
      match buildProposed s first.listId rows [] with
      | .error e => (.error e, s)
      | .ok prop =>
        match validateParents s first.listId (mergedParent s prop)
            (s.todos.length + rows.length + 2) prop with
        | .error e => (.error e, s)
        | .ok _ =>
          let s2 := compactPositionsTx (applyBulk s prop) first.listId
          (.ok (.done ⟨rows.length, first.listId⟩), s2)

/-- The duplicate scan of the route handler for PATCH /api/todos/positions:
reject on the first repeated id or repeated position of the payload. -/
def routeDupScan : List PosUpdate → List Nat → List Int → Option String
  | [], _, _ => none
  | r :: rest, ids, positions =>
    if ids.contains r.id then some "Duplicate id in payload"
    else if positions.contains r.position then some "Duplicate position in payload"
    else routeDupScan rest (r.id :: ids) (r.position :: positions)

/-- The shallow validation the route performs before calling the engine:
nonempty payload, no duplicate ids or positions, and the entry carrying
position 1 (if any) must not be indented. -/
def routeValidatePositions (rows : List PosUpdate) : Option String :=
  if rows.isEmpty then some "Array must not be empty"
  else
    match routeDupScan rows [] [] with
    | some e => some e
    | none =>
      match rows.find? (fun r => r.position == 1) with
      | some top =>
        if top.parentId.isSome then some "Cannot indent the first item in the list"
        else none
      | none => none

/-- The full bulk-reposition entry point: route validation, then the engine
transaction. -/
def bulkReposition (rows : List PosUpdate) (s : Store) :
    Except EngineErr BulkRes × Store :=
  match routeValidatePositions rows with
  | some e => (.error (.err e), s)
  | none => updateTodoPositions rows s

/-- DELETE FROM lists WHERE id=?, with the store-level foreign-key actions:
member todos cascade-deleted, surviving parent references to them nulled,
and settings.current_list_id set to null when it pointed at the list.  When
no row matches, nothing happens. -/
def deleteListRow (s : Store) (lid : Nat) : Store :=
  if s.lists.any (fun r => r.id == lid) then
    let removed := (s.todos.filter (fun t => t.listId == lid)).map (fun t => t.id)
    let kept : Store := { s with todos := s.todos.filter (fun t => t.listId != lid) }
    { todos := (fkNullParents kept removed).todos,
      lists := s.lists.filter (fun r => r.id != lid),
      currentListId := if s.currentListId == some lid then none else s.currentListId }
  else s

/-- SELECT id FROM lists ORDER BY id LIMIT 1. -/
def minListId (s : Store) : Option Nat :=
  (s.lists.map (fun r => r.id)).foldr
    (fun a acc => match acc with | none => some a | some b => some (min a b)) none

/-- deleteList: the transaction body.  The existence check happens after the
DELETE (a zero-change DELETE throws), and the current-list reassignment reads
the settings row after the SET NULL foreign-key action has fired. -/
def deleteList (lid : Nat) (s : Store) : Except EngineErr Unit × Store :=
  let s1 := deleteListRow s lid
  if !(s.lists.any (fun r => r.id == lid)) then
    (.error (.err "List not found"), s1)
  else if s1.currentListId == some lid then
    (.ok (), { s1 with currentListId := minListId s1 })
  else
    (.ok (), s1)

/-- The structural operations of the engine. -/
inductive Op where
  | create (inp : CreateIn)
  | update (tid : Nat) (patch : UpdatePatch)
  | bulk (rows : List PosUpdate)
  | delTodo (tid : Nat) (cascade : Bool)
  | delList (lid : Nat)

/-- Error and exit state of one transaction body. -/
def opBody (o : Op) (s : Store) : Except EngineErr Unit × Store :=
  match o with
  | .create inp => let r := createTodo inp s; (r.1.map (fun _ => ()), r.2)
  | .update tid p => let r := updateTodo tid p s; (r.1.map (fun _ => ()), r.2)
  | .bulk rows => let r := updateTodoPositions rows s; (r.1.map (fun _ => ()), r.2)
  | .delTodo tid c => let r := deleteTodo tid c s; (r.1.map (fun _ => ()), r.2)
  | .delList lid => let r := deleteList lid s; (r.1.map (fun _ => ()), r.2)

/-- db.transaction: commit the body's final state on success, roll back to
the prior state on a throw. -/
def runOp (o : Op) (s : Store) : Store :=
  match opBody o s with
  | (.ok _, s1) => s1
  | (.error _, _) => s

/-- Run a sequence of operations, each inside its own transaction. -/
def runSeq (ops : List Op) (s : Store) : Store :=
  ops.foldl (fun st o => runOp o st) s

/-- Does the chain x, m x, m (m x), ... reach a null parent within `fuel`
steps? -/
def chainEnds (m : Nat → Option Nat) : Nat → Nat → Bool
  | 0, _ => false
  | fuel + 1, x =>
    match m x with
    | none => true
    | some p => chainEnds m fuel p

/-- The parent chain from x terminates. -/
def Terminates (m : Nat → Option Nat) (x : Nat) : Prop :=
  ∃ fuel, chainEnds m fuel x = true

/-- Position of the chain after k steps, none once it has ended. -/
def iterP (m : Nat → Option Nat) : Nat → Nat → Option Nat
  | 0, x => some x
  | k + 1, x =>
    match m x with
    | none => none
    | some p => iterP m k p

/-- Acyclicity of the stored parent relation, in bounded decidable form:
every chain ends within length+2 steps (the bound that always suffices when
every chain terminates). -/
def Acyclic (s : Store) : Prop :=
  ∀ t ∈ s.todos, chainEnds (pmap s) (s.todos.length + 2) t.id = true

/-- Ids of the todos table are distinct (primary key). -/
def NodupIds (s : Store) : Prop :=
  (s.todos.map (fun t => t.id)).Nodup

/-- The positions of one list are exactly 1..N. -/
def contigAt (s : Store) (l : Nat) : Prop :=
  ((listItems s l).map (fun t => t.position)).Perm
    ((List.range (listItems s l).length).map (fun (i : Nat) => (i : Int) + 1))

/-- Every inhabited list has contiguous positions 1..N. -/
def PosContig (s : Store) : Prop :=
  ∀ l ∈ s.todos.map (fun t => t.listId), contigAt s l

/-- A non-null parent names an existing row of the same list. -/
def parentOkB (s : Store) (t : Todo) : Bool :=
  match t.parentId with
  | none => true
  | some p => s.todos.any (fun u => u.id == p && u.listId == t.listId)

/-- Every row's parent reference is well formed. -/
def ParentWF (s : Store) : Prop :=
  ∀ t ∈ s.todos, parentOkB s t = true

/-- The well-formedness invariant the engine maintains. -/
def WF (s : Store) : Prop :=
  NodupIds s ∧ PosContig s ∧ ParentWF s ∧ Acyclic s

/-- Is the position field absent from the patch (or present as null, which
updateTodo skips)? -/
def patchPosFree (p : UpdatePatch) : Bool :=
  match p.position with
  | some (some _) => false
  | _ => true

/-- The operations of claim C1, restricted to the calls that do not write an
explicit position: createTodo whose supplied position the engine discards
(absent, zero or negative), updateTodo without a position field, bulk
reposition and deleteTodo. -/
def AllowedC1 : Op → Prop
  | .create inp => createPosFallback (inp.position.map JsNum.num) = true
  | .update _ p => patchPosFree p = true
  | .bulk _ => True
  | .delTodo _ _ => True
  | .delList _ => False

instance (o : Op) : Decidable (AllowedC1 o) := by
  cases o <;> unfold AllowedC1 <;> infer_instance

instance (s : Store) (l : Nat) : Decidable (contigAt s l) := by
  unfold contigAt; infer_instance

instance (s : Store) : Decidable (PosContig s) := by
  unfold PosContig; infer_instance

instance (s : Store) : Decidable (NodupIds s) := by
  unfold NodupIds; infer_instance

instance (s : Store) : Decidable (ParentWF s) := by
  unfold ParentWF; infer_instance

instance (s : Store) : Decidable (Acyclic s) := by
  unfold Acyclic; infer_instance

instance (s : Store) : Decidable (WF s) := by
  unfold WF; infer_instance

/-! General list counting lemmas. -/

theorem length_filter_mono {α : Type} {p q : α → Bool} (l : List α)
    (hpq : ∀ a, p a = true → q a = true) :
    (l.filter p).length ≤ (l.filter q).length := by
  induction l with
  | nil => simp
  | cons x t ih =>
    by_cases hp : p x = true
    · simp [List.filter_cons, hp, hpq x hp]; omega
    · rcases hq : q x with _ | _ <;>
        simp [List.filter_cons, hp, hq] at * <;> omega

theorem length_filter_lt {α : Type} {p q : α → Bool} {l : List α}
    (hpq : ∀ a, p a = true → q a = true) {x : α} (hx : x ∈ l)
    (hqx : q x = true) (hpx : p x = false) :
    (l.filter p).length < (l.filter q).length := by
  induction l with
  | nil => cases hx
  | cons y t ih =>
    rcases List.mem_cons.mp hx with rfl | hxt
    · have hle := length_filter_mono (p := p) (q := q) t hpq
      simp [List.filter_cons, hpx, hqx]
      omega
    · by_cases hp : p y = true
      · have h1 := ih hxt
        simp [List.filter_cons, hp, hpq y hp]
        omega
      · have h1 := ih hxt
        rcases hq : q y with _ | _ <;>
          simp [List.filter_cons, hp, hq] <;> omega

/-! Lookup lemmas for findTodo and updRow. -/

theorem findTodo_eq_some {s : Store} {i : Nat} {t : Todo}
    (h : findTodo s i = some t) : t ∈ s.todos ∧ t.id = i := by
  unfold findTodo at h
  refine ⟨List.mem_of_find?_eq_some h, ?_⟩
  have := List.find?_some h
  simpa using this

theorem findTodo_isSome_of_mem {s : Store} {t : Todo} (h : t ∈ s.todos) :
    (findTodo s t.id).isSome := by
  unfold findTodo
  rw [List.find?_isSome]
  exact ⟨t, h, by simp⟩

theorem nodup_map_inj {α β : Type} {f : α → β} {l : List α}
    (hn : (l.map f).Nodup) {a b : α} (ha : a ∈ l) (hb : b ∈ l)
    (hf : f a = f b) : a = b := by
  induction l with
  | nil => cases ha
  | cons x t ih =>
    rw [List.map_cons, List.nodup_cons] at hn
    rcases List.mem_cons.mp ha with rfl | hat
    · rcases List.mem_cons.mp hb with rfl | hbt
      · rfl
      · have : f a ∈ t.map f := hf ▸ List.mem_map_of_mem f hbt
        exact absurd this hn.1
    · rcases List.mem_cons.mp hb with rfl | hbt
      · have : f b ∈ t.map f := hf ▸ List.mem_map_of_mem f hat
        exact absurd this hn.1
      · exact ih hn.2 hat hbt

theorem nodup_id_inj {s : Store} (hn : NodupIds s) {t u : Todo}
    (ht : t ∈ s.todos) (hu : u ∈ s.todos) (hid : t.id = u.id) : t = u :=
  nodup_map_inj hn ht hu hid

theorem findTodo_of_mem_nodup {s : Store} (hn : NodupIds s) {t : Todo}
    (h : t ∈ s.todos) : findTodo s t.id = some t := by
  rcases ho : findTodo s t.id with _ | u
  · have := findTodo_isSome_of_mem h
    rw [ho] at this
    cases this
  · rcases findTodo_eq_some ho with ⟨hu, hid⟩
    exact congrArg some (nodup_id_inj hn hu h hid)

/-! Transport lemmas: row transforms that keep ids, list ids or parents
fixed leave the corresponding views of the store unchanged. -/

theorem findTodo_map {s s' : Store} {g : Todo → Todo}
    (h : s'.todos = s.todos.map g) (hg : ∀ t, (g t).id = t.id) (i : Nat) :
    findTodo s' i = (findTodo s i).map g := by
  unfold findTodo
  rw [h, List.find?_map]
  have hfun : ((fun t => t.id == i) ∘ g) = (fun (t : Todo) => t.id == i) := by
    funext t
    simp [Function.comp, hg]
  rw [hfun]

theorem pmap_map {s s' : Store} {g : Todo → Todo}
    (h : s'.todos = s.todos.map g) (hg : ∀ t, (g t).id = t.id)
    (hp : ∀ t, (g t).parentId = t.parentId) :
    pmap s' = pmap s := by
  funext i
  unfold pmap
  rw [findTodo_map h hg]
  rcases findTodo s i with _ | t
  · rfl
  · simp [hp]

theorem listItems_map {s s' : Store} {g : Todo → Todo}
    (h : s'.todos = s.todos.map g) (hl : ∀ t, (g t).listId = t.listId) (l : Nat) :
    listItems s' l = (listItems s l).map g := by
  unfold listItems
  rw [h, List.filter_map]
  have hfun : ((fun t => t.listId == l) ∘ g) = (fun (t : Todo) => t.listId == l) := by
    funext t
    simp [Function.comp, hl]
  rw [hfun]

theorem nodupIds_map {s s' : Store} {g : Todo → Todo}
    (h : s'.todos = s.todos.map g) (hg : ∀ t, (g t).id = t.id)
    (hn : NodupIds s) : NodupIds s' := by
  unfold NodupIds at *
  rw [h, List.map_map]
  have : (fun t => t.id) ∘ g = fun t => t.id := by
    funext t; simp [Function.comp, hg]
  rw [this]
  exact hn

theorem acyclic_map {s s' : Store} {g : Todo → Todo}
    (h : s'.todos = s.todos.map g) (hg : ∀ t, (g t).id = t.id)
    (hp : ∀ t, (g t).parentId = t.parentId)
    (ha : Acyclic s) : Acyclic s' := by
  unfold Acyclic at *
  rw [pmap_map h hg hp, h, List.length_map]
  intro t ht
  rcases List.mem_map.mp ht with ⟨u, hu, rfl⟩
  rw [hg]
  exact ha u hu

theorem parentWF_map {s s' : Store} {g : Todo → Todo}
    (h : s'.todos = s.todos.map g) (hg : ∀ t, (g t).id = t.id)
    (hp : ∀ t, (g t).parentId = t.parentId)
    (hl : ∀ t, (g t).listId = t.listId)
    (hw : ParentWF s) : ParentWF s' := by
  unfold ParentWF parentOkB at *
  intro t ht
  rw [h] at ht
  rcases List.mem_map.mp ht with ⟨u, hu, rfl⟩
  have := hw u hu
  rw [hp]
  rcases hpar : u.parentId with _ | p
  · rfl
  · rw [hpar] at this
    simp only [h]
    rw [List.any_eq_true] at this ⊢
    rcases this with ⟨w, hw2, hww⟩
    refine ⟨g w, List.mem_map_of_mem g hw2, ?_⟩
    simpa [hg, hl] using hww

/-! Sorting: permutation and orderedness of the insertion sort modelling
ORDER BY position ASC, id ASC. -/

theorem posLe_total (a b : Todo) : posLe a b = true ∨ posLe b a = true := by
  unfold posLe
  rcases lt_trichotomy a.position b.position with h | h | h
  · left; simp [h]
  · rcases Nat.le_total a.id b.id with h2 | h2
    · left; simp [h, h2]
    · right; simp [h.symm, h2]
  · right; simp [h]

theorem posLe_trans {a b c : Todo} (h1 : posLe a b = true) (h2 : posLe b c = true) :
    posLe a c = true := by
  unfold posLe at *
  simp only [Bool.or_eq_true, Bool.and_eq_true, decide_eq_true_eq] at *
  rcases h1 with h1 | ⟨h1, h1'⟩ <;> rcases h2 with h2 | ⟨h2, h2'⟩
  · left; exact lt_trans h1 h2
  · left; exact h2 ▸ h1
  · left; exact h1 ▸ h2
  · right; exact ⟨h1.trans h2, le_trans h1' h2'⟩

theorem insertPos_perm (r : Todo) (l : List Todo) : (insertPos r l).Perm (r :: l) := by
  induction l with
  | nil => simp [insertPos]
  | cons x xs ih =>
    unfold insertPos
    by_cases h : posLe r x = true
    · rw [if_pos h]
    · rw [if_neg h]
      exact (List.Perm.cons x ih).trans (List.Perm.swap r x xs)

theorem sortPos_perm (l : List Todo) : (sortPos l).Perm l := by
  induction l with
  | nil => simp [sortPos]
  | cons x xs ih =>
    unfold sortPos
    exact (insertPos_perm x (sortPos xs)).trans (List.Perm.cons x ih)

theorem mem_insertPos {r y : Todo} {l : List Todo} :
    y ∈ insertPos r l ↔ y = r ∨ y ∈ l := by
  constructor
  · intro h
    have := (insertPos_perm r l).mem_iff.mp h
    rcases List.mem_cons.mp this with h | h
    · exact Or.inl h
    · exact Or.inr h
  · intro h
    apply (insertPos_perm r l).mem_iff.mpr
    rcases h with rfl | h
    · exact List.mem_cons_self y l
    · exact List.mem_cons_of_mem r h

theorem insertPos_pairwise {r : Todo} {l : List Todo}
    (h : l.Pairwise (fun a b => posLe a b = true)) :
    (insertPos r l).Pairwise (fun a b => posLe a b = true) := by
  induction l with
  | nil => simp [insertPos]
  | cons x xs ih =>
    rw [List.pairwise_cons] at h
    unfold insertPos
    by_cases hle : posLe r x = true
    · rw [if_pos hle]
      rw [List.pairwise_cons]
      constructor
      · intro y hy
        rcases List.mem_cons.mp hy with rfl | hmem
        · exact hle
        · exact posLe_trans hle (h.1 y hmem)
      · rw [List.pairwise_cons]
        exact h
    · rw [if_neg hle]
      rw [List.pairwise_cons]
      constructor
      · intro y hy
        rcases mem_insertPos.mp hy with rfl | hmem
        · rcases posLe_total y x with h2 | h2
          · exact absurd h2 (by simpa using hle)
          · exact h2
        · exact h.1 y hmem
      · exact ih h.2

theorem sortPos_pairwise (l : List Todo) :
    (sortPos l).Pairwise (fun a b => posLe a b = true) := by
  induction l with
  | nil => simp [sortPos]
  | cons x xs ih =>
    exact insertPos_pairwise ih

/-! Characterization of the compaction write loop. -/

/-- Index of the first row with the given id. -/
def idIdx : List Todo → Nat → Option Nat
  | [], _ => none
  | r :: rest, i =>
      if r.id == i then some 0 else (idIdx rest i).map (fun j => j + 1)

theorem idIdx_cons_eq {r : Todo} {rest : List Todo} {i : Nat}
    (h : (r.id == i) = true) : idIdx (r :: rest) i = some 0 := by
  unfold idIdx
  rw [if_pos h]

theorem idIdx_cons_ne {r : Todo} {rest : List Todo} {i : Nat}
    (h : ¬ (r.id == i) = true) :
    idIdx (r :: rest) i = (idIdx rest i).map (fun j => j + 1) := by
  simp only [idIdx]
  rw [if_neg h]

theorem idIdx_eq_none {rows : List Todo} {i : Nat}
    (h : i ∉ rows.map (fun t => t.id)) : idIdx rows i = none := by
  induction rows with
  | nil => rfl
  | cons r rest ih =>
    rw [List.map_cons, List.mem_cons] at h
    push_neg at h
    unfold idIdx
    rw [if_neg (by simpa using (Ne.symm h.1)), ih h.2]
    rfl

theorem idIdx_mem {rows : List Todo} {i : Nat}
    (h : i ∈ rows.map (fun t => t.id)) : ∃ j, idIdx rows i = some j := by
  induction rows with
  | nil => cases h
  | cons r rest ih =>
    rw [List.map_cons, List.mem_cons] at h
    unfold idIdx
    by_cases he : r.id == i
    · exact ⟨0, by rw [if_pos he]⟩
    · rcases h with h | h
      · exact absurd (by simpa using h.symm) (by simpa using he)
      · rcases ih h with ⟨j, hj⟩
        exact ⟨j + 1, by rw [if_neg he, hj]; rfl⟩

theorem idIdx_getElem {rows : List Todo}
    (hn : (rows.map (fun t => t.id)).Nodup) (j : Nat) (hj : j < rows.length) :
    idIdx rows (rows[j].id) = some j := by
  induction rows generalizing j with
  | nil => cases hj
  | cons r rest ih =>
    rw [List.map_cons, List.nodup_cons] at hn
    rcases j with _ | j
    · exact idIdx_cons_eq (by simp)
    · have hjr : j < rest.length := by simpa using Nat.lt_of_succ_lt_succ hj
      have hget : (r :: rest)[j + 1] = rest[j] := by
        rw [List.getElem_cons_succ]
      have hmem : rest[j].id ∈ rest.map (fun t => t.id) :=
        List.mem_map_of_mem _ (rest.getElem_mem hjr)
      have hne : ¬ (r.id == (r :: rest)[j + 1].id) = true := by
        rw [hget]
        intro hcontra
        rw [beq_iff_eq] at hcontra
        exact hn.1 (hcontra ▸ hmem)
      rw [idIdx_cons_ne hne, hget, ih hn.2 j hjr]
      rfl

theorem idIdx_some {rows : List Todo} {i j : Nat} (h : idIdx rows i = some j) :
    ∃ hj : j < rows.length, rows[j].id = i := by
  induction rows generalizing j with
  | nil => cases h
  | cons r rest ih =>
    unfold idIdx at h
    by_cases he : (r.id == i) = true
    · rw [if_pos he] at h
      cases h
      exact ⟨Nat.succ_pos _, by simpa using he⟩
    · rw [if_neg he] at h
      rcases hr : idIdx rest i with _ | j0
      · rw [hr] at h; cases h
      · rw [hr] at h
        replace h : some (j0 + 1) = some j := h
        cases h
        rcases ih hr with ⟨hj0, hid⟩
        exact ⟨by simpa using Nat.succ_lt_succ hj0, by simpa using hid⟩

/-- The pointwise effect of the compaction loop on a row, given the sorted
rows of the affected list. -/
def compactFn (srt : List Todo) (t : Todo) : Todo :=
  match idIdx srt t.id with
  | some j => { t with position := 1 + (j : Int) }
  | none => t

theorem compactFn_id (srt : List Todo) (t : Todo) : (compactFn srt t).id = t.id := by
  unfold compactFn
  rcases idIdx srt t.id with _ | j <;> rfl

theorem compactFn_listId (srt : List Todo) (t : Todo) :
    (compactFn srt t).listId = t.listId := by
  unfold compactFn
  rcases idIdx srt t.id with _ | j <;> rfl

theorem compactFn_parentId (srt : List Todo) (t : Todo) :
    (compactFn srt t).parentId = t.parentId := by
  unfold compactFn
  rcases idIdx srt t.id with _ | j <;> rfl

theorem compactFn_rest (srt : List Todo) (t : Todo) :
    (compactFn srt t).text = t.text ∧ (compactFn srt t).completed = t.completed ∧
      (compactFn srt t).isEmpty = t.isEmpty ∧ (compactFn srt t).isIndented = t.isIndented := by
  unfold compactFn
  rcases idIdx srt t.id with _ | j <;> exact ⟨rfl, rfl, rfl, rfl⟩

theorem applyPositions_todos (rows : List Todo) (s : Store) (k : Int)
    (hn : (rows.map (fun t => t.id)).Nodup) :
    (applyPositions s rows k).todos = s.todos.map (fun t =>
      match idIdx rows t.id with
      | some j => { t with position := k + (j : Int) }
      | none => t) := by
  induction rows generalizing s k with
  | nil =>
    unfold applyPositions
    simp [idIdx]
  | cons r rest ih =>
    rw [List.map_cons, List.nodup_cons] at hn
    show (applyPositions (updRow s r.id (fun t => { t with position := k })) rest (k + 1)).todos = _
    rw [ih _ _ hn.2]
    unfold updRow
    rw [List.map_map]
    apply List.map_congr_left
    intro t ht
    simp only [Function.comp]
    by_cases he : (t.id == r.id) = true
    · rw [if_pos he]
      have hid : r.id = t.id := (beq_iff_eq.mp he).symm
      rw [idIdx_cons_eq (by simpa using hid)]
      show _ = ({ t with position := k + ((0 : Nat) : Int) } : Todo)
      have hnone : idIdx rest t.id = none := by
        apply idIdx_eq_none
        intro hmem
        exact hn.1 (hid ▸ hmem)
      rw [hnone]
      simp
    · rw [if_neg he]
      have hne : ¬ (r.id == t.id) = true := by
        intro hcontra
        rw [beq_iff_eq] at hcontra
        exact he (by simp [hcontra])
      rw [idIdx_cons_ne hne]
      rcases hr : idIdx rest t.id with _ | j
      · rfl
      · simp only [Option.map_some]
        have harith : k + 1 + (j : Int) = k + (((j + 1 : Nat) : Nat) : Int) := by
          push_cast
          ring
        rw [harith]
        rfl

theorem sortPos_ids_nodup {s : Store} (l : Nat) (hn : NodupIds s) :
    ((sortPos (listItems s l)).map (fun t => t.id)).Nodup := by
  have hsub : (listItems s l).Sublist s.todos := List.filter_sublist s.todos
  have h1 : ((listItems s l).map (fun t => t.id)).Nodup :=
    List.Nodup.sublist (hsub.map (fun t => t.id)) hn
  have hperm := (sortPos_perm (listItems s l)).map (fun t => t.id)
  exact hperm.nodup_iff.mpr h1

theorem compact_todos (s : Store) (l : Nat) (hn : NodupIds s) :
    (compactPositionsTx s l).todos =
      s.todos.map (compactFn (sortPos (listItems s l))) := by
  unfold compactPositionsTx
  rw [applyPositions_todos _ _ _ (sortPos_ids_nodup l hn)]
  apply List.map_congr_left
  intro t ht
  unfold compactFn
  rcases idIdx (sortPos (listItems s l)) t.id with _ | j <;> rfl

theorem mem_listItems {s : Store} {l : Nat} {t : Todo} :
    t ∈ listItems s l ↔ t ∈ s.todos ∧ t.listId = l := by
  unfold listItems
  rw [List.mem_filter]
  simp

theorem compactFn_eq_self {srt : List Todo} {t : Todo}
    (h : t.id ∉ srt.map (fun u => u.id)) : compactFn srt t = t := by
  unfold compactFn
  rw [idIdx_eq_none h]

theorem map_pos_compactFn (srt : List Todo)
    (hn : (srt.map (fun t => t.id)).Nodup) :
    srt.map (fun t => (compactFn srt t).position) =
      (List.range srt.length).map (fun (i : Nat) => (i : Int) + 1) := by
  apply List.ext_getElem
  · simp
  · intro i h1 h2
    rw [List.length_map] at h1
    simp only [List.getElem_map, List.getElem_range]
    unfold compactFn
    rw [idIdx_getElem hn i h1]
    show (1 : Int) + (i : Int) = (i : Int) + 1
    ring

theorem sortPos_mem_ids {s : Store} {l : Nat} {i : Nat}
    (h : i ∈ (sortPos (listItems s l)).map (fun t => t.id)) :
    ∃ u ∈ s.todos, u.id = i ∧ u.listId = l := by
  rcases List.mem_map.mp h with ⟨u, hu, rfl⟩
  have := (sortPos_perm (listItems s l)).mem_iff.mp hu
  rcases mem_listItems.mp this with ⟨h1, h2⟩
  exact ⟨u, h1, rfl, h2⟩

theorem compact_contig (s : Store) (l : Nat) (hn : NodupIds s) :
    contigAt (compactPositionsTx s l) l := by
  unfold contigAt
  have hct := compact_todos s l hn
  have hli := listItems_map hct (compactFn_listId (sortPos (listItems s l))) l
  rw [hli, List.length_map, List.map_map]
  have hperm : (listItems s l).Perm (sortPos (listItems s l)) :=
    (sortPos_perm (listItems s l)).symm
  have h1 := hperm.map
    (fun t => (compactFn (sortPos (listItems s l)) t).position)
  rw [map_pos_compactFn _ (sortPos_ids_nodup l hn)] at h1
  have hlen : (sortPos (listItems s l)).length = (listItems s l).length :=
    hperm.symm.length_eq
  rw [hlen] at h1
  have hcomp : ((fun t => t.position) ∘ compactFn (sortPos (listItems s l))) =
      (fun t => (compactFn (sortPos (listItems s l)) t).position) := rfl
  rw [hcomp]
  exact h1

theorem compact_listItems_other (s : Store) (l l' : Nat) (hn : NodupIds s)
    (hne : l' ≠ l) :
    listItems (compactPositionsTx s l) l' = listItems s l' := by
  have hct := compact_todos s l hn
  rw [listItems_map hct (compactFn_listId (sortPos (listItems s l))) l']
  have : ∀ t ∈ listItems s l', compactFn (sortPos (listItems s l)) t = t := by
    intro t ht
    rcases mem_listItems.mp ht with ⟨h1, h2⟩
    apply compactFn_eq_self
    intro hmem
    rcases sortPos_mem_ids hmem with ⟨u, hu, hid, hul⟩
    have := nodup_id_inj hn hu h1 hid
    subst this
    exact hne (h2 ▸ hul)
  calc (listItems s l').map (compactFn (sortPos (listItems s l)))
      = (listItems s l').map id := List.map_congr_left (by simpa using this)
    _ = listItems s l' := List.map_id _

/-! Maximum position arithmetic. -/

theorem le_foldr_max {l : List Int} {x b : Int} (h : x ∈ l) : x ≤ l.foldr max b := by
  induction l with
  | nil => cases h
  | cons y t ih =>
    rcases List.mem_cons.mp h with rfl | h
    · exact le_max_left _ _
    · exact le_trans (ih h) (le_max_right _ _)

theorem foldr_max_le {l : List Int} {b c : Int} (hb : b ≤ c)
    (h : ∀ x ∈ l, x ≤ c) : l.foldr max b ≤ c := by
  induction l with
  | nil => exact hb
  | cons y t ih =>
    apply max_le (h y (List.mem_cons_self y t))
    exact ih (fun x hx => h x (List.mem_cons_of_mem y hx))

theorem maxPos_of_contig {s : Store} {l : Nat} (h : contigAt s l) :
    maxPosOf s l = ((listItems s l).length : Int) := by
  unfold contigAt at h
  unfold maxPosOf
  set n := (listItems s l).length with hn
  rcases Nat.eq_zero_or_pos n with h0 | hpos
  · have : listItems s l = [] := List.length_eq_zero.mp (by omega)
    rw [this]
    simp [h0]
  · apply le_antisymm
    · apply foldr_max_le (by positivity)
      intro x hx
      have := h.mem_iff.mp hx
      rcases List.mem_map.mp this with ⟨i, hi, rfl⟩
      rw [List.mem_range] at hi
      omega
    · have hmem : (n : Int) ∈ (listItems s l).map (fun t => t.position) := by
        apply h.mem_iff.mpr
        apply List.mem_map.mpr
        refine ⟨n - 1, List.mem_range.mpr (by omega), ?_⟩
        omega
      exact le_foldr_max hmem

/-! Parent-chain machinery: monotonicity, ranks of terminating chains, and
the size bound on chain length. -/

theorem chainEnds_succ (m : Nat → Option Nat) (f x : Nat) :
    chainEnds m (f + 1) x =
      (match m x with
       | none => true
       | some p => chainEnds m f p) := by
  simp only [chainEnds]

theorem chainEnds_succ_none {m : Nat → Option Nat} {x : Nat} (hm : m x = none) (k : Nat) :
    chainEnds m (k + 1) x = true := by
  rw [chainEnds_succ, hm]

theorem chainEnds_succ_some {m : Nat → Option Nat} {x p : Nat} (hm : m x = some p) (k : Nat) :
    chainEnds m (k + 1) x = chainEnds m k p := by
  rw [chainEnds_succ, hm]

theorem chainEnds_mono (m : Nat → Option Nat) {f g : Nat} {x : Nat}
    (hfg : f ≤ g) (h : chainEnds m f x = true) : chainEnds m g x = true := by
  induction f generalizing g x with
  | zero => cases h
  | succ f ih =>
    rcases g with _ | g
    · omega
    · rcases hm : m x with _ | p
      · exact chainEnds_succ_none hm g
      · rw [chainEnds_succ_some hm] at h
        rw [chainEnds_succ_some hm]
        exact ih (by omega) h

theorem terminates_of_none {m : Nat → Option Nat} {x : Nat} (h : m x = none) :
    Terminates m x :=
  ⟨1, chainEnds_succ_none h 0⟩

theorem terminates_step {m : Nat → Option Nat} {x p : Nat} (hm : m x = some p)
    (h : Terminates m p) : Terminates m x := by
  rcases h with ⟨f, hf⟩
  exact ⟨f + 1, by rw [chainEnds_succ_some hm]; exact hf⟩

theorem terminates_unstep {m : Nat → Option Nat} {x p : Nat} (hm : m x = some p)
    (h : Terminates m x) : Terminates m p := by
  rcases h with ⟨f, hf⟩
  rcases f with _ | f
  · cases hf
  · rw [chainEnds_succ_some hm] at hf
    exact ⟨f, hf⟩

/-- The rank of a node: the least fuel that ends its chain. -/
def rankOf (m : Nat → Option Nat) (ht : ∀ x, Terminates m x) (x : Nat) : Nat :=
  Nat.find (ht x)

theorem chainEnds_rankOf {m : Nat → Option Nat} (ht : ∀ x, Terminates m x) (x : Nat) :
    chainEnds m (rankOf m ht x) x = true :=
  Nat.find_spec (ht x)

theorem rankOf_le {m : Nat → Option Nat} (ht : ∀ x, Terminates m x) {x f : Nat}
    (h : chainEnds m f x = true) : rankOf m ht x ≤ f :=
  Nat.find_min' (ht x) h

theorem rankOf_step {m : Nat → Option Nat} (ht : ∀ x, Terminates m x) {x p : Nat}
    (hm : m x = some p) : rankOf m ht p < rankOf m ht x := by
  have hr := chainEnds_rankOf ht x
  rcases hrx : rankOf m ht x with _ | f
  · rw [hrx] at hr; cases hr
  · rw [hrx, chainEnds_succ_some hm] at hr
    have := rankOf_le ht hr
    omega

theorem chainEnds_size_bound {m : Nat → Option Nat} {L : List Nat}
    (hsupp : ∀ x p, m x = some p → x ∈ L) (ht : ∀ x, Terminates m x) :
    ∀ x, chainEnds m (L.length + 2) x = true := by
  have key : ∀ n x, rankOf m ht x = n →
      chainEnds m ((L.filter (fun a => decide (rankOf m ht a < rankOf m ht x))).length + 2) x = true := by
    intro n
    induction n using Nat.strong_induction_on with
    | _ n ih =>
      intro x hrx
      rcases hm : m x with _ | p
      · exact chainEnds_succ_none hm _
      · rcases hmp : m p with _ | q
        · show chainEnds m (_ + 1 + 1) x = true
          rw [chainEnds_succ_some hm]
          exact chainEnds_succ_none hmp _
        · have hpL : p ∈ L := hsupp p q hmp
          have hrp : rankOf m ht p < rankOf m ht x := rankOf_step ht hm
          have hcnt : (L.filter (fun a => decide (rankOf m ht a < rankOf m ht p))).length <
              (L.filter (fun a => decide (rankOf m ht a < rankOf m ht x))).length := by
            apply length_filter_lt _ hpL
            · simp [hrp]
            · simp
            · intro a ha
              simp only [decide_eq_true_eq] at ha ⊢
              omega
          have hstep := ih (rankOf m ht p) (hrx ▸ hrp) p rfl
          show chainEnds m (_ + 1 + 1) x = true
          rw [chainEnds_succ_some hm]
          apply chainEnds_mono m _ hstep
          omega
  intro x
  apply chainEnds_mono m _ (key (rankOf m ht x) x rfl)
  have := List.length_filter_le (fun a => decide (rankOf m ht a < rankOf m ht x)) L
  omega

theorem pmap_supp {s : Store} {x p : Nat} (h : pmap s x = some p) :
    x ∈ s.todos.map (fun t => t.id) := by
  unfold pmap at h
  rcases hf : findTodo s x with _ | t
  · rw [hf] at h; cases h
  · rcases findTodo_eq_some hf with ⟨hmem, hid⟩
    exact hid ▸ List.mem_map_of_mem _ hmem

theorem acyclic_terminates {s : Store} (h : Acyclic s) :
    ∀ x, Terminates (pmap s) x := by
  intro x
  rcases hm : pmap s x with _ | p
  · exact terminates_of_none hm
  · have hx := pmap_supp hm
    rcases List.mem_map.mp hx with ⟨t, ht, rfl⟩
    exact ⟨s.todos.length + 2, h t ht⟩

theorem terminates_acyclic {s : Store} (h : ∀ x, Terminates (pmap s) x) :
    Acyclic s := by
  intro t ht
  have := chainEnds_size_bound (L := s.todos.map (fun u => u.id))
    (fun x p hxp => pmap_supp hxp) h t.id
  simpa using this

theorem acyclic_chainEnds_all {s : Store} (h : Acyclic s) (x : Nat) :
    chainEnds (pmap s) (s.todos.length + 2) x = true := by
  have := chainEnds_size_bound (L := s.todos.map (fun u => u.id))
    (fun a p hap => pmap_supp hap) (acyclic_terminates h) x
  simpa using this

/-! Iteration of the parent map and cycles. -/

theorem iterP_zero (m : Nat → Option Nat) (x : Nat) : iterP m 0 x = some x := rfl

theorem iterP_succ (m : Nat → Option Nat) (k : Nat) (x : Nat) :
    iterP m (k + 1) x =
      (match m x with
       | none => none
       | some p => iterP m k p) := by
  simp only [iterP]

theorem iterP_succ_none {m : Nat → Option Nat} {x : Nat} (hm : m x = none) (k : Nat) :
    iterP m (k + 1) x = none := by
  rw [iterP_succ, hm]

theorem iterP_succ_some {m : Nat → Option Nat} {x p : Nat} (hm : m x = some p) (k : Nat) :
    iterP m (k + 1) x = iterP m k p := by
  rw [iterP_succ, hm]

theorem iterP_add (m : Nat → Option Nat) (a b : Nat) (x : Nat) :
    iterP m (a + b) x =
      (match iterP m a x with
       | some y => iterP m b y
       | none => none) := by
  induction a generalizing x with
  | zero =>
    rw [Nat.zero_add, iterP_zero]
  | succ a ih =>
    have h1 : a + 1 + b = (a + b) + 1 := by omega
    rcases hm : m x with _ | p
    · rw [h1, iterP_succ_none hm, iterP_succ_none hm]
    · rw [h1, iterP_succ_some hm, iterP_succ_some hm, ih p]

theorem iterP_one (m : Nat → Option Nat) (x : Nat) : iterP m 1 x = m x := by
  rcases hm : m x with _ | p
  · exact iterP_succ_none hm 0
  · rw [iterP_succ_some hm 0]
    exact iterP_zero m p

theorem iterP_succ_right (m : Nat → Option Nat) (k : Nat) (x : Nat) :
    iterP m (k + 1) x =
      (match iterP m k x with
       | some y => m y
       | none => none) := by
  rw [iterP_add m k 1 x]
  rcases iterP m k x with _ | y
  · rfl
  · exact iterP_one m y

theorem chainEnds_of_iter {m : Nat → Option Nat} {f j x y : Nat}
    (h : chainEnds m f x = true) (hi : iterP m j x = some y) :
    chainEnds m f y = true := by
  induction j generalizing x with
  | zero =>
    cases hi
    exact h
  | succ j ih =>
    rcases hm : m x with _ | p
    · rw [iterP_succ_none hm] at hi
      cases hi
    · rw [iterP_succ_some hm] at hi
      rcases f with _ | f
      · cases h
      · rw [chainEnds_succ_some hm] at h
        exact ih (chainEnds_mono m (by omega) h) hi

/-- A node on a cycle has no terminating chain. -/
theorem no_end_on_cycle {m : Nat → Option Nat} {d : Nat} (hd : 1 ≤ d) :
    ∀ f v, iterP m d v = some v → chainEnds m f v = false := by
  intro f
  induction f using Nat.strong_induction_on with
  | _ f ih =>
    intro v hv
    rcases f with _ | f
    · rfl
    · rcases d with _ | d0
      · omega
      · rcases hm : m v with _ | w
        · rw [iterP_succ_none hm] at hv
          cases hv
        · have hw : iterP m (d0 + 1) w = some w := by
            have h1 : iterP m (d0 + 1 + 1) v = some w := by
              rw [iterP_succ_right]
              have h2 : iterP m (d0 + 1) v = some v := hv
              rw [h2]
              show m v = some w
              exact hm
            have h3 : iterP m (d0 + 1 + 1) v = iterP m (d0 + 1) w := by
              have h4 : d0 + 1 + 1 = 1 + (d0 + 1) := by omega
              rw [h4, iterP_add, iterP_one, hm]
            rw [h3] at h1
            exact h1
          rw [chainEnds_succ_some hm]
          exact ih f (by omega) w hw

/-! The updateTodo ancestor walk. -/

theorem ancWalk_succ_none {m : Nat → Option Nat} {tid x : Nat} (hm : m x = none)
    (f : Nat) : ancWalk m tid (f + 1) x = some false := by
  simp only [ancWalk]
  rw [hm]

theorem ancWalk_succ_hit {m : Nat → Option Nat} {tid x p : Nat} (hm : m x = some p)
    (hp : (p == tid) = true) (f : Nat) : ancWalk m tid (f + 1) x = some true := by
  simp only [ancWalk]
  rw [hm]
  simp [hp]

theorem ancWalk_succ_step {m : Nat → Option Nat} {tid x p : Nat} (hm : m x = some p)
    (hp : ¬ (p == tid) = true) (f : Nat) :
    ancWalk m tid (f + 1) x = ancWalk m tid f p := by
  simp only [ancWalk]
  rw [hm]
  simp only [Bool.not_eq_true] at hp
  simp [hp]

theorem ancWalk_ne_none_of_chainEnds {m : Nat → Option Nat} {tid : Nat} :
    ∀ {f x : Nat}, chainEnds m f x = true → ancWalk m tid f x ≠ none := by
  intro f
  induction f with
  | zero => intro x h; cases h
  | succ f ih =>
    intro x h
    rcases hm : m x with _ | p
    · rw [ancWalk_succ_none hm]
      simp
    · by_cases hp : (p == tid) = true
      · rw [ancWalk_succ_hit hm hp]
        simp
      · rw [ancWalk_succ_step hm hp]
        rw [chainEnds_succ_some hm] at h
        exact ih h

theorem ancWalk_false_spec {m : Nat → Option Nat} {tid : Nat} :
    ∀ {f x : Nat}, ancWalk m tid f x = some false →
      ∀ j y, iterP m j x = some y → m y ≠ some tid := by
  intro f
  induction f with
  | zero => intro x h; cases h
  | succ f ih =>
    intro x h j y hj
    rcases hm : m x with _ | p
    · rcases j with _ | j
      · cases hj
        rw [hm]
        simp
      · rw [iterP_succ_none hm] at hj
        cases hj
    · by_cases hp : (p == tid) = true
      · rw [ancWalk_succ_hit hm hp] at h
        cases h
      · rw [ancWalk_succ_step hm hp] at h
        rcases j with _ | j
        · cases hj
          rw [hm]
          intro hcontra
          rw [Option.some_inj] at hcontra
          exact hp (by simp [hcontra])
        · rw [iterP_succ_some hm] at hj
          exact ih h j y hj

theorem ancWalk_false_chainEnds {m : Nat → Option Nat} {tid : Nat} :
    ∀ {f x : Nat}, ancWalk m tid f x = some false → chainEnds m f x = true := by
  intro f
  induction f with
  | zero => intro x h; cases h
  | succ f ih =>
    intro x h
    rcases hm : m x with _ | p
    · exact chainEnds_succ_none hm f
    · by_cases hp : (p == tid) = true
      · rw [ancWalk_succ_hit hm hp] at h
        cases h
      · rw [ancWalk_succ_step hm hp] at h
        rw [chainEnds_succ_some hm]
        exact ih h

theorem ancWalk_true_cycle {m : Nat → Option Nat} {tid : Nat} :
    ∀ {f x : Nat}, ancWalk m tid f x = some true →
      ∃ j y, iterP m j x = some y ∧ m y = some tid := by
  intro f
  induction f with
  | zero => intro x h; cases h
  | succ f ih =>
    intro x h
    rcases hm : m x with _ | p
    · rw [ancWalk_succ_none hm] at h
      cases h
    · by_cases hp : (p == tid) = true
      · refine ⟨0, x, iterP_zero m x, ?_⟩
        rw [hm, beq_iff_eq.mp hp]
      · rw [ancWalk_succ_step hm hp] at h
        rcases ih h with ⟨j, y, hj, hy⟩
        exact ⟨j + 1, y, by rw [iterP_succ_some hm]; exact hj, hy⟩

/-- The chain from `a` avoids `tid`, so a reparenting of `tid` does not
change it. -/
theorem chainEnds_congr_avoid {m m' : Nat → Option Nat} {tid : Nat}
    (hmm : ∀ y, y ≠ tid → m' y = m y) :
    ∀ {f a : Nat}, (∀ j y, iterP m j a = some y → y ≠ tid) →
      chainEnds m f a = true → chainEnds m' f a = true := by
  intro f
  induction f with
  | zero => intro a _ h; cases h
  | succ f ih =>
    intro a havoid h
    have ha : a ≠ tid := havoid 0 a (iterP_zero m a)
    rcases hm : m a with _ | p
    · exact chainEnds_succ_none ((hmm a ha).trans hm) f
    · rw [chainEnds_succ_some ((hmm a ha).trans hm)]
      rw [chainEnds_succ_some hm] at h
      apply ih _ h
      intro j y hj
      exact havoid (j + 1) y (by rw [iterP_succ_some hm]; exact hj)

/-- Terminating chains survive a pointwise update of the parent map provided
every changed node has a terminating new chain. -/
theorem terminates_update {m m' : Nat → Option Nat} (changed : Nat → Prop)
    (hm : ∀ y, ¬ changed y → m' y = m y)
    (hterm : ∀ y, changed y → Terminates m' y)
    (ht : ∀ x, Terminates m x) : ∀ x, Terminates m' x := by
  have key : ∀ n x, rankOf m ht x = n → Terminates m' x := by
    intro n
    induction n using Nat.strong_induction_on with
    | _ n ih =>
      intro x hrx
      by_cases hc : changed x
      · exact hterm x hc
      · rcases hmx : m x with _ | p
        · exact terminates_of_none ((hm x hc).trans hmx)
        · by_cases hcp : changed p
          · exact terminates_step ((hm x hc).trans hmx) (hterm p hcp)
          · have hrp := rankOf_step ht hmx
            exact terminates_step ((hm x hc).trans hmx) (ih _ (hrx ▸ hrp) p rfl)
  intro x
  exact key _ x rfl

/-! The seen-set walk of updateTodoPositions. -/

theorem seenWalk_succ_none (m : Nat → Option Nat) (f : Nat) (seen : List Nat) :
    seenWalk m (f + 1) seen none = some false := by
  simp only [seenWalk]

theorem seenWalk_succ_mem {m : Nat → Option Nat} {seen : List Nat} {c : Nat}
    (h : seen.contains c = true) (f : Nat) :
    seenWalk m (f + 1) seen (some c) = some true := by
  simp only [seenWalk]
  rw [if_pos h]

theorem seenWalk_succ_new {m : Nat → Option Nat} {seen : List Nat} {c : Nat}
    (h : ¬ seen.contains c = true) (f : Nat) :
    seenWalk m (f + 1) seen (some c) = seenWalk m f (c :: seen) (m c) := by
  simp only [seenWalk]
  rw [if_neg h]

theorem seenWalk_ne_none {m : Nat → Option Nat} {L : List Nat}
    (hsupp : ∀ x p, m x = some p → x ∈ L) :
    ∀ f seen c, (L.filter (fun a => !(seen.contains a))).length + 2 ≤ f →
      seenWalk m f seen c ≠ none := by
  intro f
  induction f with
  | zero =>
    intro seen c h
    omega
  | succ f ih =>
    intro seen c hle
    rcases c with _ | c
    · rw [seenWalk_succ_none]
      simp
    · by_cases hmem : seen.contains c = true
      · rw [seenWalk_succ_mem hmem]
        simp
      · rw [seenWalk_succ_new hmem]
        by_cases hcL : c ∈ L
        · apply ih
          have hstrict : (L.filter (fun a => !((c :: seen).contains a))).length <
              (L.filter (fun a => !(seen.contains a))).length := by
            apply length_filter_lt _ hcL
            · simpa using hmem
            · simp
            · intro a ha
              simp only [Bool.not_eq_true', List.contains_cons] at ha ⊢
              rcases Bool.or_eq_false_iff.mp ha with ⟨h1, h2⟩
              exact h2
          omega
        · have hmc : m c = none := by
            rcases hmc : m c with _ | p
            · rfl
            · exact absurd (hsupp c p hmc) hcL
          rw [hmc]
          rcases f with _ | f
          · omega
          · rw [seenWalk_succ_none]
            simp

theorem seenWalk_false_terminates {m : Nat → Option Nat} :
    ∀ f (seen : List Nat) (c : Nat), seenWalk m f seen (some c) = some false →
      Terminates m c := by
  intro f
  induction f with
  | zero => intro seen c h; cases h
  | succ f ih =>
    intro seen c h
    by_cases hmem : seen.contains c = true
    · rw [seenWalk_succ_mem hmem] at h
      cases h
    · rw [seenWalk_succ_new hmem] at h
      rcases hmc : m c with _ | p
      · exact terminates_of_none hmc
      · rw [hmc] at h
        exact terminates_step hmc (ih _ p h)

theorem seenWalk_true_cycle {m : Nat → Option Nat} {root : Nat} :
    ∀ f (seen : List Nat) (c t : Nat),
      (∀ y ∈ seen, ∃ j, j < t ∧ iterP m j root = some y) →
      iterP m t root = some c →
      seenWalk m f seen (some c) = some true → ¬ Terminates m root := by
  intro f
  induction f with
  | zero => intro seen c t _ _ h; cases h
  | succ f ih =>
    intro seen c t hseen hc hw
    by_cases hmem : seen.contains c = true
    · have hcmem : c ∈ seen := by simpa using hmem
      rcases hseen c hcmem with ⟨j, hjt, hj⟩
      have hcyc : iterP m (t - j) c = some c := by
        have hsplit : j + (t - j) = t := by omega
        have h2 := iterP_add m j (t - j) root
        rw [hsplit, hj] at h2
        rw [hc] at h2
        exact h2.symm
      intro hterm
      rcases hterm with ⟨F, hF⟩
      have hFc : chainEnds m F c = true := chainEnds_of_iter hF hj
      have := no_end_on_cycle (by omega) F c hcyc
      rw [this] at hFc
      cases hFc
    · rw [seenWalk_succ_new hmem] at hw
      rcases hmc : m c with _ | c2
      · rw [hmc] at hw
        rcases f with _ | f
        · cases hw
        · rw [seenWalk_succ_none] at hw
          cases hw
      · rw [hmc] at hw
        apply ih (c :: seen) c2 (t + 1) _ _ hw
        · intro y hy
          rcases List.mem_cons.mp hy with rfl | hy2
          · exact ⟨t, by omega, hc⟩
          · rcases hseen y hy2 with ⟨j, hjt, hj⟩
            exact ⟨j, by omega, hj⟩
        · rw [iterP_succ_right, hc]
          exact hmc

/-- The cycle check of updateTodoPositions detects exactly the entries whose
merged parent chain never terminates. -/
theorem seenWalk_spec {m : Nat → Option Nat} {i pid : Nat} {L : List Nat} {f : Nat}
    (hm : m i = some pid)
    (hsupp : ∀ x p, m x = some p → x ∈ L)
    (hf : L.length + 2 ≤ f) :
    (seenWalk m f [i] (some pid) = some true ↔ ¬ Terminates m i) := by
  constructor
  · intro hw
    apply seenWalk_true_cycle f [i] pid 1 _ _ hw
    · intro y hy
      rcases List.mem_cons.mp hy with rfl | hy2
      · exact ⟨0, by omega, iterP_zero m y⟩
      · cases hy2
    · rw [iterP_one]
      exact hm
  · intro hterm
    rcases hw : seenWalk m f [i] (some pid) with _ | b
    · exfalso
      apply seenWalk_ne_none hsupp f [i] (some pid) _ hw
      have := List.length_filter_le (fun a => !(([i] : List Nat).contains a)) L
      omega
    · rcases b with _ | _
      · exfalso
        exact hterm (terminates_step hm (seenWalk_false_terminates f [i] pid hw))
      · rfl

/-! Patch application facts. -/

theorem applyPatch_id (p : UpdatePatch) (tp : Option Nat) (t : Todo) :
    (applyPatch p tp t).id = t.id := by
  unfold applyPatch
  rcases p.text with _ | a <;> rcases p.completed with _ | b <;>
    rcases p.isEmpty with _ | c <;> rcases p.parentId with _ | d <;>
    rcases p.isIndented with _ | e <;> rcases p.position with _ | (_ | v) <;> simp

theorem applyPatch_listId (p : UpdatePatch) (tp : Option Nat) (t : Todo) :
    (applyPatch p tp t).listId = t.listId := by
  unfold applyPatch
  rcases p.text with _ | a <;> rcases p.completed with _ | b <;>
    rcases p.isEmpty with _ | c <;> rcases p.parentId with _ | d <;>
    rcases p.isIndented with _ | e <;> rcases p.position with _ | (_ | v) <;> simp

theorem updRow_map_pair (s : Store) (i : Nat) (f : Todo → Todo)
    (hid : ∀ t, (f t).id = t.id) (hl : ∀ t, (f t).listId = t.listId) :
    (updRow s i f).todos.map (fun t => (t.id, t.listId)) =
      s.todos.map (fun t => (t.id, t.listId)) := by
  unfold updRow
  rw [List.map_map]
  apply List.map_congr_left
  intro t ht
  by_cases h : (t.id == i) = true
  · simp [Function.comp, h, hid, hl]
  · simp [Function.comp, h]

/-- C9: updateTodo leaves every row's listId (and id) unchanged, whatever the
patch contains — including a listId field; an item can never be moved to
another list through updateTodo, and this holds on the error paths as well. -/
theorem c9_updateTodo_listId_frame (tid : Nat) (p : UpdatePatch) (s : Store) :
    ((updateTodo tid p s).2).todos.map (fun t => (t.id, t.listId)) =
      s.todos.map (fun t => (t.id, t.listId)) := by
  unfold updateTodo
  rcases hf : findTodo s tid with _ | row
  · rfl
  · dsimp only
    (repeat' split) <;>
      first
        | rfl
        | exact updRow_map_pair s tid _ (applyPatch_id p _) (applyPatch_listId p _)

/-! Atomicity: every transaction body validates before it writes, so an
error exit leaves the state untouched even before the rollback. -/

theorem findTodo_updRow (s : Store) (i : Nat) (f : Todo → Todo)
    (hid : ∀ t, (f t).id = t.id) (j : Nat) :
    findTodo (updRow s i f) j =
      (findTodo s j).map (fun t => if t.id == i then f t else t) := by
  apply findTodo_map rfl
  intro t
  by_cases h : (t.id == i) = true <;> simp [h, hid]

theorem createTodo_err_state (inp : CreateIn) (s : Store) :
    (∃ t, (createTodo inp s).1 = .ok t) ∨ (createTodo inp s).2 = s := by
  unfold createTodo
  dsimp only
  repeat' split
  all_goals first | (right; rfl) | (left; exact ⟨_, rfl⟩)

theorem updateTodo_err_state (tid : Nat) (p : UpdatePatch) (s : Store) :
    (∃ t, (updateTodo tid p s).1 = .ok t) ∨ (updateTodo tid p s).2 = s := by
  unfold updateTodo
  dsimp only
  repeat' split
  all_goals first
    | (right; rfl)
    | (left; exact ⟨_, rfl⟩)
    | (exfalso
       simp_all [findTodo_updRow s tid _ (applyPatch_id p _)])

theorem updateTodoPositions_err_state (rows : List PosUpdate) (s : Store) :
    (∃ r, (updateTodoPositions rows s).1 = .ok r) ∨ (updateTodoPositions rows s).2 = s := by
  unfold updateTodoPositions
  dsimp only
  repeat' split
  all_goals first | (right; rfl) | (left; exact ⟨_, rfl⟩)

theorem deleteTodo_err_state (tid : Nat) (c : Bool) (s : Store) :
    (∃ out, (deleteTodo tid c s).1 = .ok out) ∨ (deleteTodo tid c s).2 = s := by
  unfold deleteTodo
  dsimp only
  repeat' split
  all_goals first | (right; rfl) | (left; exact ⟨_, rfl⟩)

theorem deleteList_err_state (lid : Nat) (s : Store) :
    (∃ u, (deleteList lid s).1 = .ok u) ∨ (deleteList lid s).2 = s := by
  unfold deleteList
  dsimp only
  split
  · right
    show deleteListRow s lid = s
    unfold deleteListRow
    rw [if_neg]
    simp_all
  · split
    · left; exact ⟨_, rfl⟩
    · left; exact ⟨_, rfl⟩

/-- C6: every structural engine operation (createTodo, updateTodo,
updateTodoPositions, deleteTodo, deleteList) is atomic: when the transaction
body exits with an error, the state observable at the exit point equals the
state before the call (every validation precedes every write, and the only
write that can precede the deleteList existence check changes nothing when
the check fails), and the transaction wrapper consequently commits no
change: runOp returns the prior state. -/
theorem c6_ops_atomic (o : Op) (s : Store) (e : EngineErr)
    (h : (opBody o s).1 = .error e) : (opBody o s).2 = s ∧ runOp o s = s := by
  have hmain : (opBody o s).2 = s := by
    rcases o with inp | ⟨tid, p⟩ | rows | ⟨tid, c⟩ | lid
    · rcases createTodo_err_state inp s with ⟨t, ht⟩ | hs
      · exfalso
        unfold opBody at h
        dsimp only at h
        rw [ht] at h
        cases h
      · exact hs
    · rcases updateTodo_err_state tid p s with ⟨t, ht⟩ | hs
      · exfalso
        unfold opBody at h
        dsimp only at h
        rw [ht] at h
        cases h
      · exact hs
    · rcases updateTodoPositions_err_state rows s with ⟨t, ht⟩ | hs
      · exfalso
        unfold opBody at h
        dsimp only at h
        rw [ht] at h
        cases h
      · exact hs
    · rcases deleteTodo_err_state tid c s with ⟨t, ht⟩ | hs
      · exfalso
        unfold opBody at h
        dsimp only at h
        rw [ht] at h
        cases h
      · exact hs
    · rcases deleteList_err_state lid s with ⟨t, ht⟩ | hs
      · exfalso
        unfold opBody at h
        dsimp only at h
        rw [ht] at h
        cases h
      · exact hs
  refine ⟨hmain, ?_⟩
  unfold runOp
  rcases hob : opBody o s with ⟨r, s1⟩
  rw [hob] at h
  rcases r with e2 | u
  · rfl
  · cases h

/-! Concrete stores used by witnesses and counterexamples. -/

/-- A single list row. -/
def listOne : ListRow := ⟨1, "My Todo List"⟩

/-- Scenario items: A at position 1, B at position 2 indented under A, C at
position 3. -/
def todoA : Todo := ⟨1, "A", false, false, none, false, 1, 1⟩

def todoB : Todo := ⟨2, "B", false, false, some 1, true, 2, 1⟩

def todoC : Todo := ⟨3, "C", false, false, none, false, 3, 1⟩

def storeABC : Store := ⟨[todoA, todoB, todoC], [listOne], some 1⟩

/-- Two top-level items in one list. -/
def todoB0 : Todo := ⟨2, "B", false, false, none, false, 2, 1⟩

def storeAB : Store := ⟨[todoA, todoB0], [listOne], some 1⟩

/-- A store holding a parent cycle between rows 1 and 2. -/
def storeCyc : Store :=
  ⟨[⟨1, "", false, false, some 2, true, 1, 1⟩,
    ⟨2, "", false, false, some 1, true, 2, 1⟩,
    ⟨3, "", false, false, none, false, 3, 1⟩], [listOne], some 1⟩

/-- A store whose only row has a dangling parent reference. -/
def storeDangle : Store :=
  ⟨[⟨1, "x", false, false, some 99, true, 1, 1⟩], [listOne], some 1⟩

/-- One list and no items. -/
def emptyListStore : Store := ⟨[], [listOne], some 1⟩

/-- Witness for c6_ops_atomic: deleting a missing id fails and changes
nothing. -/
theorem c6_ops_atomic_witness :
    (opBody (Op.delTodo 42 true) storeABC).1 = .error (.err "Todo not found") ∧
      (opBody (Op.delTodo 42 true) storeABC).2 = storeABC ∧
      runOp (Op.delTodo 42 true) storeABC = storeABC := by
  have h := c6_ops_atomic (Op.delTodo 42 true) storeABC (.err "Todo not found")
    (by decide)
  exact ⟨by decide, h.1, h.2⟩

/-- C3 (amended): on every store whose parent relation is acyclic, the
ancestor walk of updateTodo terminates within todos.length + 2 steps — the
fuel ancestorWalk hands to the walk — whatever node it starts from.  The
walk stops at a null or dangling parent or on finding the updated id among
the ancestors; it keeps no seen set, so the bound comes from acyclicity, not
from revisit detection. -/
theorem c3_ancestor_walk_terminates (s : Store) (tid start : Nat)
    (h : Acyclic s) : ancestorWalk s tid start ≠ none := by
  unfold ancestorWalk
  exact ancWalk_ne_none_of_chainEnds (acyclic_chainEnds_all h start)

/-- Witness for c3_ancestor_walk_terminates on the scenario store. -/
theorem c3_ancestor_walk_terminates_witness :
    Acyclic storeABC ∧ ancestorWalk storeABC 3 1 ≠ none :=
  ⟨by decide, c3_ancestor_walk_terminates storeABC 3 1 (by decide)⟩

/-- C3 counterexample: the claim says the walk terminates for every store
state; on a store with a pre-existing parent cycle, the walk started from
row 1 while updating row 3 returns no result for any fuel — the source loop
runs forever, since updateTodo keeps no seen set. -/
theorem c3_counterexample :
    ¬ (∃ fuel, ancWalk (pmap storeCyc) 3 fuel 1 ≠ none) := by
  have key : ∀ fuel, ancWalk (pmap storeCyc) 3 fuel 1 = none ∧
      ancWalk (pmap storeCyc) 3 fuel 2 = none := by
    intro fuel
    induction fuel with
    | zero => exact ⟨rfl, rfl⟩
    | succ f ih =>
      constructor
      · rw [ancWalk_succ_step (show pmap storeCyc 1 = some 2 by decide) (by decide) f]
        exact ih.2
      · rw [ancWalk_succ_step (show pmap storeCyc 2 = some 1 by decide) (by decide) f]
        exact ih.1
  rintro ⟨fuel, hf⟩
  exact hf (key fuel).1

/-- C7 (amended): for an existing item of a well-formed store (distinct ids,
parents existing in the same list, acyclic parent relation) whose current
state does not itself combine a non-null parent with position 1, updateTodo
with a patch containing no recognized mutable field is a no-op: it returns
the current row unchanged and raises no error.  The well-formedness
hypotheses are needed because updateTodo validates the item's current parent
and position even when the patch sets nothing. -/
theorem c7_updateTodo_noop (s : Store) (tid : Nat) (row : Todo) (p : UpdatePatch)
    (hfind : findTodo s tid = some row)
    (hn : NodupIds s) (hpw : ParentWF s) (hacy : Acyclic s)
    (hpos1 : ¬ (row.parentId.isSome = true ∧ row.position = 1))
    (ht : p.text = none) (hc : p.completed = none) (he : p.isEmpty = none)
    (hp : p.parentId = none) (hi : p.isIndented = none) (hq : p.position = none) :
    updateTodo tid p s = (.ok row, s) := by
  have hrowmem : row ∈ s.todos := (findTodo_eq_some hfind).1
  have hpmap : pmap s tid = row.parentId := by
    unfold pmap
    rw [hfind]
    rfl
  have hset : patchHasSet p = false := by
    unfold patchHasSet
    rw [ht, hc, he, hp, hi, hq]
    rfl
  unfold updateTodo
  rw [hfind]
  dsimp only
  rw [hp, hq]
  dsimp only
  rcases hrp : row.parentId with _ | tp
  · simp [hset]
  · have hmtid : pmap s tid = some tp := by rw [hpmap, hrp]
    have htp_ne : (tp == tid) = false := by
      rw [beq_eq_false_iff_ne]
      intro heq
      have hone : iterP (pmap s) 1 tid = some tid := by
        rw [iterP_one, hmtid, heq]
      have hce := acyclic_chainEnds_all hacy tid
      rw [no_end_on_cycle (by omega) _ tid hone] at hce
      cases hce
    have hpob := hpw row hrowmem
    unfold parentOkB at hpob
    rw [hrp] at hpob
    rw [List.any_eq_true] at hpob
    rcases hpob with ⟨u, humem, hucond⟩
    rw [Bool.and_eq_true, beq_iff_eq, beq_iff_eq] at hucond
    have hfindu : findTodo s tp = some u := by
      rw [← hucond.1]
      exact findTodo_of_mem_nodup hn humem
    have hlist : (u.listId != row.listId) = false := by
      simp [hucond.2]
    have hwalk : ancestorWalk s tid tp = some false := by
      have hnn : ancestorWalk s tid tp ≠ none :=
        c3_ancestor_walk_terminates s tid tp hacy
      have hnt : ancestorWalk s tid tp ≠ some true := by
        intro hw
        unfold ancestorWalk at hw
        rcases ancWalk_true_cycle hw with ⟨j, y, hj, hy⟩
        have hiter : iterP (pmap s) (j + 2) tid = some tid := by
          have h1 : iterP (pmap s) (1 + (j + 1)) tid = some tid := by
            rw [iterP_add, iterP_one, hmtid]
            show iterP (pmap s) (j + 1) tp = some tid
            rw [iterP_succ_right, hj]
            show pmap s y = some tid
            exact hy
          have h2 : j + 2 = 1 + (j + 1) := by omega
          rw [h2]
          exact h1
        have hce := acyclic_chainEnds_all hacy tid
        rw [no_end_on_cycle (by omega) _ tid hiter] at hce
        cases hce
      rcases hwv : ancestorWalk s tid tp with _ | b
      · exact absurd hwv hnn
      · rcases b with _ | _
        · rfl
        · exact absurd hwv hnt
    have hposne : (row.position == 1) = false := by
      rw [beq_eq_false_iff_ne]
      intro hcontra
      exact hpos1 ⟨by rw [hrp]; rfl, hcontra⟩
    simp [htp_ne, hfindu, hlist, hwalk, hposne, hset]

/-- Witness for c7_updateTodo_noop: the empty patch on item B of the
scenario store. -/
theorem c7_updateTodo_noop_witness :
    findTodo storeABC 2 = some todoB ∧ NodupIds storeABC ∧ ParentWF storeABC ∧
      Acyclic storeABC ∧ updateTodo 2 emptyPatch storeABC = (.ok todoB, storeABC) :=
  ⟨by decide, by decide, by decide, by decide,
    c7_updateTodo_noop storeABC 2 todoB emptyPatch (by decide) (by decide)
      (by decide) (by decide) (by decide) rfl rfl rfl rfl rfl rfl⟩

/-- C7 counterexample: the claim promises a no-op without error for every
existing item; on a store whose row carries a dangling parent reference, the
empty patch raises an error, because updateTodo validates the current parent
even when no recognized field is present. -/
theorem c7_counterexample :
    findTodo storeDangle 1 = some ⟨1, "x", false, false, some 99, true, 1, 1⟩ ∧
      (updateTodo 1 emptyPatch storeDangle).1 =
        .error (.err "Parent todo not found") := by
  decide

/-- C8: compactPositionsTx, applied to a list's rows in any position order,
renumbers exactly that list to 1..N following the sort key (current position
ascending, ties by id ascending): the sorted sequence is a permutation of
the list's rows in that key order, its i-th row receives position i+1 with
every other field unchanged, rows of other lists are untouched, and the
resulting positions of the list are exactly 1..N. -/
theorem c8_compact_assigns (s : Store) (l : Nat) (hn : NodupIds s) :
    (sortPos (listItems s l)).Perm (listItems s l) ∧
    (sortPos (listItems s l)).Pairwise (fun a b => posLe a b = true) ∧
    (∀ i, (hi : i < (sortPos (listItems s l)).length) →
      findTodo (compactPositionsTx s l) ((sortPos (listItems s l))[i].id) =
        some { (sortPos (listItems s l))[i] with position := 1 + (i : Int) }) ∧
    (∀ t ∈ s.todos, t.listId ≠ l → findTodo (compactPositionsTx s l) t.id = some t) ∧
    contigAt (compactPositionsTx s l) l := by
  have hct := compact_todos s l hn
  have hfind := fun j => findTodo_map hct
    (compactFn_id (sortPos (listItems s l))) j
  refine ⟨sortPos_perm _, sortPos_pairwise _, ?_, ?_, compact_contig s l hn⟩
  · intro i hi
    have hmem : (sortPos (listItems s l))[i] ∈ sortPos (listItems s l) :=
      List.getElem_mem hi
    have hmem2 : (sortPos (listItems s l))[i] ∈ s.todos :=
      (mem_listItems.mp ((sortPos_perm (listItems s l)).mem_iff.mp hmem)).1
    rw [hfind, findTodo_of_mem_nodup hn hmem2]
    show some (compactFn (sortPos (listItems s l)) (sortPos (listItems s l))[i]) = _
    unfold compactFn
    rw [idIdx_getElem (sortPos_ids_nodup l hn) i hi]
  · intro t htm hne
    have heq : compactFn (sortPos (listItems s l)) t = t := by
      apply compactFn_eq_self
      intro hmem
      rcases sortPos_mem_ids hmem with ⟨u, hu, hid, hul⟩
      have := nodup_id_inj hn hu htm hid
      subst this
      exact hne (hul ▸ rfl)
    rw [hfind, findTodo_of_mem_nodup hn htm]
    show some (compactFn (sortPos (listItems s l)) t) = some t
    rw [heq]

/-- A store whose list 1 has gaps and unordered positions. -/
def storeGap : Store :=
  ⟨[⟨1, "p", false, false, none, false, 7, 1⟩,
    ⟨2, "q", false, false, none, false, 3, 1⟩,
    ⟨3, "r", false, false, none, false, 3, 2⟩], [⟨1, "L"⟩, ⟨2, "M"⟩], some 1⟩

/-- Witness for c8_compact_assigns on a store with gapped positions. -/
theorem c8_compact_assigns_witness :
    NodupIds storeGap ∧
      ((sortPos (listItems storeGap 1)).Perm (listItems storeGap 1) ∧
       (sortPos (listItems storeGap 1)).Pairwise (fun a b => posLe a b = true) ∧
       (∀ i, (hi : i < (sortPos (listItems storeGap 1)).length) →
         findTodo (compactPositionsTx storeGap 1) ((sortPos (listItems storeGap 1))[i].id) =
           some { (sortPos (listItems storeGap 1))[i] with position := 1 + (i : Int) }) ∧
       (∀ t ∈ storeGap.todos, t.listId ≠ 1 →
         findTodo (compactPositionsTx storeGap 1) t.id = some t) ∧
       contigAt (compactPositionsTx storeGap 1) 1) :=
  ⟨by decide, c8_compact_assigns storeGap 1 (by decide)⟩

/-! Success characterization of createTodo. -/

theorem createTodo_ok_result {inp : CreateIn} {s : Store} {t : Todo} {s1 : Store}
    (h : createTodo inp s = (.ok t, s1)) :
    t = ⟨maxTodoId s + 1, inp.text.getD "", inp.completed,
          inp.isEmpty || trimEmpty (inp.text.getD ""), inp.parentId,
          inp.parentId.isSome, createPosEff inp s, resolveListId inp s⟩ ∧
      s1 = { s with todos := s.todos ++ [t] } := by
  unfold createTodo at h
  dsimp only at h
  repeat' split at h
  all_goals rw [Prod.mk.injEq] at h
  all_goals try (exact Except.noConfusion h.1)
  all_goals
    (rw [Except.ok.injEq] at h
     refine ⟨h.1.symm, ?_⟩
     rw [← h.2, h.1])

theorem createTodo_ok_parent {inp : CreateIn} {s : Store} {t : Todo} {s1 : Store}
    (h : createTodo inp s = (.ok t, s1)) :
    ∀ pid, inp.parentId = some pid →
      ∃ pr, findTodo s pid = some pr ∧ pr.listId = resolveListId inp s := by
  intro pid hpid
  unfold createTodo at h
  dsimp only at h
  rw [hpid] at h
  dsimp only at h
  rcases hf : findTodo s pid with _ | pr
  · rw [hf] at h
    dsimp only at h
    rw [Prod.mk.injEq] at h
    exact Except.noConfusion h.1
  · rw [hf] at h
    dsimp only at h
    by_cases hl : (pr.listId == resolveListId inp s) = true
    · exact ⟨pr, rfl, beq_iff_eq.mp hl⟩
    · rw [if_neg hl] at h
      dsimp only at h
      rw [Prod.mk.injEq] at h
      exact Except.noConfusion h.1

/-- C10 (amended): createTodo discards the supplied position exactly when
the guard fires — for an absent, zero, negative, or NaN position the created
row receives max(position)+1 in its resolved list; a positive supplied
value, including positive infinity, is used as-is.  The first part states
the engine behavior for integer-or-absent inputs; the second gives the
truth table of the guard over coerced numbers. -/
theorem c10_create_position_default :
    (∀ (s : Store) (inp : CreateIn) (t : Todo) (s1 : Store),
      (inp.position = none ∨ ∃ v, inp.position = some v ∧ v ≤ 0) →
      createTodo inp s = (.ok t, s1) →
      t.position = maxPosOf s (resolveListId inp s) + 1) ∧
    (∀ j : JsNum, createPosFallback (some j) = true ↔
      (j = .nan ∨ j = .negInf ∨ ∃ v, j = .num v ∧ v ≤ 0)) := by
  constructor
  · intro s inp t s1 hfall hok
    have hres := (createTodo_ok_result hok).1
    rw [hres]
    show createPosEff inp s = _
    unfold createPosEff
    rcases hfall with hnone | ⟨v, hv, hle⟩
    · rw [hnone]
    · rw [hv]
      dsimp only
      rw [if_pos]
      unfold createPosFallback jsFalsy jsLeZero
      simp [hle]
  · intro j
    rcases j with v | _ | _ | _ <;>
      simp [createPosFallback, jsFalsy, jsLeZero] <;>
      omega

/-- Witness for c10_create_position_default: a negative supplied position is
replaced by max+1. -/
theorem c10_create_position_default_witness :
    ((some (-5 : Int) = none ∨ ∃ v, some (-5 : Int) = some v ∧ v ≤ 0) ∧
      createTodo ⟨some "x", false, false, none, some (-5), some 1⟩ emptyListStore =
        (.ok ⟨1, "x", false, false, none, false, 1, 1⟩,
          ⟨[⟨1, "x", false, false, none, false, 1, 1⟩], [listOne], some 1⟩)) ∧
      (⟨1, "x", false, false, none, false, 1, 1⟩ : Todo).position =
        maxPosOf emptyListStore
          (resolveListId ⟨some "x", false, false, none, some (-5), some 1⟩ emptyListStore) + 1 :=
  ⟨⟨Or.inr ⟨-5, rfl, by decide⟩, by decide⟩,
    c10_create_position_default.1 emptyListStore
      ⟨some "x", false, false, none, some (-5), some 1⟩
      ⟨1, "x", false, false, none, false, 1, 1⟩
      ⟨[⟨1, "x", false, false, none, false, 1, 1⟩], [listOne], some 1⟩
      (Or.inr ⟨-5, rfl, by decide⟩) (by decide)⟩

/-- C10 counterexample: the claim says a supplied position that is not a
finite positive number is treated as omitted, but positive infinity passes
the guard `!position || position <= 0`, so the fallback does not fire and
the value is used as-is. -/
theorem c10_counterexample : ¬ (createPosFallback (some JsNum.posInf) = true) := by
  decide

/-! Route-level duplicate scan. -/

theorem routeDupScan_none_iff (rows : List PosUpdate) :
    ∀ (ids : List Nat) (positions : List Int),
      routeDupScan rows ids positions = none ↔
        ((rows.map (fun r => r.id)).Nodup ∧
         (rows.map (fun r => r.position)).Nodup ∧
         (∀ i ∈ ids, i ∉ rows.map (fun r => r.id)) ∧
         (∀ p ∈ positions, p ∉ rows.map (fun r => r.position))) := by
  induction rows with
  | nil =>
    intro ids positions
    simp [routeDupScan]
  | cons r rest ih =>
    intro ids positions
    unfold routeDupScan
    constructor
    · intro h
      by_cases h1 : ids.contains r.id = true
      · rw [if_pos h1] at h; cases h
      · rw [if_neg h1] at h
        by_cases h2 : positions.contains r.position = true
        · rw [if_pos h2] at h; cases h
        · rw [if_neg h2] at h
          rcases (ih _ _).mp h with ⟨hn1, hn2, hd1, hd2⟩
          refine ⟨?_, ?_, ?_, ?_⟩
          · rw [List.map_cons, List.nodup_cons]
            exact ⟨hd1 r.id (List.mem_cons_self _ _), hn1⟩
          · rw [List.map_cons, List.nodup_cons]
            exact ⟨hd2 r.position (List.mem_cons_self _ _), hn2⟩
          · intro i hi
            rw [List.map_cons, List.mem_cons]
            push_neg
            constructor
            · rintro rfl
              exact h1 (by simpa using hi)
            · exact hd1 i (List.mem_cons_of_mem _ hi)
          · intro q hq
            rw [List.map_cons, List.mem_cons]
            push_neg
            constructor
            · rintro rfl
              exact h2 (by simpa using hq)
            · exact hd2 q (List.mem_cons_of_mem _ hq)
    · rintro ⟨hn1, hn2, hd1, hd2⟩
      rw [List.map_cons, List.nodup_cons] at hn1 hn2
      have h1 : ids.contains r.id = false := by
        rw [Bool.eq_false_iff]
        intro hcontra
        have hmem : r.id ∈ ids := by simpa using hcontra
        exact hd1 r.id hmem (by simp)
      have h2 : positions.contains r.position = false := by
        rw [Bool.eq_false_iff]
        intro hcontra
        have hmem : r.position ∈ positions := by simpa using hcontra
        exact hd2 r.position hmem (by simp)
      rw [if_neg (by rw [h1]; simp), if_neg (by rw [h2]; simp)]
      apply (ih _ _).mpr
      refine ⟨hn1.2, hn2.2, ?_, ?_⟩
      · intro i hi
        rcases List.mem_cons.mp hi with rfl | hi2
        · exact hn1.1
        · intro hcontra
          exact hd1 i hi2 (List.mem_cons_of_mem _ hcontra)
      · intro q hq
        rcases List.mem_cons.mp hq with rfl | hq2
        · exact hn2.1
        · intro hcontra
          exact hd2 q hq2 (List.mem_cons_of_mem _ hcontra)

/-- When some entry carries the literal position 1 with a non-null parent,
the route validation rejects the payload. -/
theorem routeValidate_pos1 {rows : List PosUpdate} {r : PosUpdate}
    (hr : r ∈ rows) (h1 : r.position = 1) (hp : r.parentId.isSome = true) :
    ∃ msg, routeValidatePositions rows = some msg := by
  unfold routeValidatePositions
  rw [if_neg (by simp [List.isEmpty_iff]; rintro rfl; cases hr)]
  rcases hscan : routeDupScan rows [] [] with _ | e
  · have hnodup := ((routeDupScan_none_iff rows [] []).mp hscan).2.1
    have hfsome : (rows.find? (fun x => x.position == 1)).isSome := by
      rw [List.find?_isSome]
      exact ⟨r, hr, by simp [h1]⟩
    rcases hf : rows.find? (fun x => x.position == 1) with _ | top
    · rw [hf] at hfsome; cases hfsome
    · have htop1 : top.position = 1 := by simpa using List.find?_some hf
      have htopmem : top ∈ rows := List.mem_of_find?_eq_some hf
      have heq : top = r := nodup_map_inj hnodup htopmem hr (by rw [htop1, h1])
      rw [hf, heq]
      dsimp only
      rw [if_pos hp]
      exact ⟨_, rfl⟩
  · exact ⟨e, rfl⟩

/-- C2 (amended): the bulk reposition entry point rejects the whole batch,
changing nothing, whenever some entry of the payload carries the literal
position 1 together with a non-null parentId.  The check runs on the raw
payload before compaction; the resolved position 1 of the list is not what
is inspected. -/
theorem c2_bulk_top_entry_rejected (rows : List PosUpdate) (s : Store)
    (h : ∃ r ∈ rows, r.position = 1 ∧ r.parentId.isSome = true) :
    (∃ msg, (bulkReposition rows s).1 = .error (.err msg)) ∧
      (bulkReposition rows s).2 = s := by
  rcases h with ⟨r, hr, h1, hp⟩
  rcases routeValidate_pos1 hr h1 hp with ⟨msg, hmsg⟩
  unfold bulkReposition
  rw [hmsg]
  exact ⟨⟨msg, rfl⟩, rfl⟩

/-- Witness for c2_bulk_top_entry_rejected. -/
theorem c2_bulk_top_entry_rejected_witness :
    (∃ r ∈ [(⟨1, 1, some 2⟩ : PosUpdate)], r.position = 1 ∧ r.parentId.isSome = true) ∧
      (∃ msg, (bulkReposition [⟨1, 1, some 2⟩] storeAB).1 = .error (.err msg)) ∧
      (bulkReposition [⟨1, 1, some 2⟩] storeAB).2 = storeAB :=
  ⟨by decide, c2_bulk_top_entry_rejected [⟨1, 1, some 2⟩] storeAB (by decide)⟩

/-- C2 counterexample: the claim demands rejection whenever the item that
ends up at resolved position 1 after compaction has a non-null parent; this
batch carries no literal position 1, passes every check, and commits: the
row that lands at position 1 is indented under row 1, and the store
changed. -/
theorem c2_counterexample :
    (bulkReposition [⟨2, 0, some 1⟩] storeAB).1 = .ok (.done ⟨1, 1⟩) ∧
      (∃ t ∈ ((bulkReposition [⟨2, 0, some 1⟩] storeAB).2).todos,
        t.position = 1 ∧ t.parentId = some 1) ∧
      (bulkReposition [⟨2, 0, some 1⟩] storeAB).2 ≠ storeAB := by
  decide

/-! Descendants: the chain-based meaning of the recursive CTE. -/

/-- Transitive descendant: the parent chain from `t` reaches `tid`. -/
def Descendant (s : Store) (tid : Nat) (t : Todo) : Prop :=
  ∃ fuel, isDescAux s tid t fuel = true

theorem isDescAux_succ (s : Store) (tid : Nat) (t : Todo) (k : Nat) :
    isDescAux s tid t (k + 1) =
      (match t.parentId with
       | none => false
       | some p => p == tid ||
           (match findTodo s p with
            | none => false
            | some pt => isDescAux s tid pt k)) := by
  simp only [isDescAux]

theorem isDescAux_mono {s : Store} {tid : Nat} :
    ∀ {k k' : Nat} {t : Todo}, k ≤ k' →
      isDescAux s tid t k = true → isDescAux s tid t k' = true := by
  intro k
  induction k with
  | zero => intro k' t _ h; cases h
  | succ k ih =>
    intro k' t hle h
    rcases k' with _ | k'
    · omega
    · rw [isDescAux_succ] at h ⊢
      rcases hp : t.parentId with _ | p
      · simp [hp] at h
      · simp only [hp] at h
        rw [Bool.or_eq_true] at h ⊢
        rcases h with h | h
        · exact Or.inl h
        · right
          rcases hf : findTodo s p with _ | pt
          · simp [hf] at h
          · simp only [hf] at h
            exact ih (by omega) h

theorem isDescAux_bound {s : Store} (hn : NodupIds s) (hacy : Acyclic s) (tid : Nat) :
    ∀ {t : Todo} {k : Nat}, t ∈ s.todos → isDescAux s tid t k = true →
      isDescAux s tid t (s.todos.length + 1) = true := by
  have ht := acyclic_terminates hacy
  have key : ∀ n t k, t ∈ s.todos → rankOf (pmap s) ht t.id = n →
      isDescAux s tid t k = true →
      isDescAux s tid t
        ((s.todos.filter (fun u =>
          decide (rankOf (pmap s) ht u.id < rankOf (pmap s) ht t.id))).length + 1) = true := by
    intro n
    induction n using Nat.strong_induction_on with
    | _ n ih =>
      intro t k htm hrk hdesc
      rcases k with _ | k
      · cases hdesc
      · rw [isDescAux_succ] at hdesc
        rcases hp : t.parentId with _ | p
        · simp [hp] at hdesc
        · simp only [hp] at hdesc
          rw [Bool.or_eq_true] at hdesc
          rcases hdesc with hhit | hrec
          · rw [isDescAux_succ, hp]
            simp [hhit]
          · rcases hf : findTodo s p with _ | pt
            · simp [hf] at hrec
            · simp only [hf] at hrec
              have hptm := (findTodo_eq_some hf).1
              have hptid : pt.id = p := (findTodo_eq_some hf).2
              have hmp : pmap s t.id = some p := by
                simp [pmap, findTodo_of_mem_nodup hn htm, hp]
              have hrstep : rankOf (pmap s) ht p < rankOf (pmap s) ht t.id :=
                rankOf_step ht hmp
              have hcnt : (s.todos.filter (fun u =>
                    decide (rankOf (pmap s) ht u.id < rankOf (pmap s) ht pt.id))).length <
                  (s.todos.filter (fun u =>
                    decide (rankOf (pmap s) ht u.id < rankOf (pmap s) ht t.id))).length := by
                apply length_filter_lt _ hptm
                · simp [hptid, hrstep]
                · simp
                · intro a ha
                  simp only [decide_eq_true_eq, hptid] at ha ⊢
                  omega
              have hih := ih (rankOf (pmap s) ht pt.id)
                (by rw [hptid]; exact hrk ▸ hrstep) pt k hptm rfl hrec
              have hmono : isDescAux s tid pt
                  ((s.todos.filter (fun u =>
                    decide (rankOf (pmap s) ht u.id < rankOf (pmap s) ht t.id))).length) = true :=
                isDescAux_mono (by omega) hih
              rw [isDescAux_succ, hp]
              simp [hf, hmono]
  intro t k htm hdesc
  apply isDescAux_mono _ (key (rankOf (pmap s) ht t.id) t k htm rfl hdesc)
  have := List.length_filter_le (fun u =>
    decide (rankOf (pmap s) ht u.id < rankOf (pmap s) ht t.id)) s.todos
  omega

theorem mem_descendantIds {s : Store} (hn : NodupIds s) (hacy : Acyclic s)
    {tid : Nat} {t : Todo} (htm : t ∈ s.todos) :
    t.id ∈ descendantIds s tid ↔ Descendant s tid t := by
  unfold descendantIds
  constructor
  · intro h
    rcases List.mem_map.mp h with ⟨u, hu, huid⟩
    rcases List.mem_filter.mp hu with ⟨humem, hdesc⟩
    have heq : u = t := nodup_id_inj hn humem htm huid
    subst heq
    exact ⟨_, hdesc⟩
  · rintro ⟨k, hk⟩
    apply List.mem_map.mpr
    refine ⟨t, List.mem_filter.mpr ⟨htm, ?_⟩, rfl⟩
    exact isDescAux_bound hn hacy tid htm hk

theorem descendant_listId {s : Store} (hn : NodupIds s) (hpw : ParentWF s)
    {tid : Nat} {target : Todo} (hfind : findTodo s tid = some target) :
    ∀ {k : Nat} {t : Todo}, t ∈ s.todos → isDescAux s tid t k = true →
      t.listId = target.listId := by
  intro k
  induction k with
  | zero => intro t _ h; cases h
  | succ k ih =>
    intro t htm h
    rw [isDescAux_succ] at h
    rcases hp : t.parentId with _ | p
    · simp [hp] at h
    · simp only [hp] at h
      have hpob := hpw t htm
      unfold parentOkB at hpob
      simp only [hp] at hpob
      rw [List.any_eq_true] at hpob
      rcases hpob with ⟨u, humem, hcond⟩
      rw [Bool.and_eq_true, beq_iff_eq, beq_iff_eq] at hcond
      rw [Bool.or_eq_true] at h
      rcases h with h | h
      · have hpid : p = tid := by simpa using h
        have hfu : findTodo s p = some u := by
          rw [← hcond.1]
          exact findTodo_of_mem_nodup hn humem
        rw [hpid, hfind] at hfu
        have : target = u := by
          exact Option.some.inj hfu
        rw [← hcond.2, ← this]
      · rcases hf : findTodo s p with _ | pt
        · simp [hf] at h
        · simp only [hf] at h
          have hptm := (findTodo_eq_some hf).1
          have hptid : pt.id = p := (findTodo_eq_some hf).2
          have hpt_u : pt = u := nodup_id_inj hn hptm humem (by rw [hptid, hcond.1])
          calc t.listId = u.listId := hcond.2.symm
            _ = pt.listId := by rw [hpt_u]
            _ = target.listId := ih hptm h

/-- The per-row effect of the lift loop. -/
def liftTodo (t : Todo) : Todo := { t with parentId := none, isIndented := false }

theorem liftTodo_id (t : Todo) : (liftTodo t).id = t.id := rfl

theorem liftTodo_liftTodo (t : Todo) : liftTodo (liftTodo t) = liftTodo t := rfl

theorem liftAll_todos : ∀ (ds : List Nat) (s : Store),
    (liftAll s ds).todos = s.todos.map (fun t =>
      if ds.contains t.id then liftTodo t else t) := by
  intro ds
  induction ds with
  | nil =>
    intro s
    simp [liftAll]
  | cons d rest ih =>
    intro s
    have hstep : liftAll s (d :: rest) = liftAll (updRow s d liftTodo) rest := rfl
    rw [hstep, ih]
    unfold updRow
    rw [List.map_map]
    apply List.map_congr_left
    intro t ht
    simp only [Function.comp_apply]
    by_cases hd : t.id = d
    · simp [hd, liftTodo_id, liftTodo_liftTodo]
    · simp [hd, List.contains_cons]

/-- The per-row effect of ON DELETE SET NULL. -/
def fkFn (ids : List Nat) (t : Todo) : Todo :=
  match t.parentId with
  | some p => if ids.contains p then { t with parentId := none } else t
  | none => t

theorem fkNull_todos (s : Store) (ids : List Nat) :
    (fkNullParents s ids).todos = s.todos.map (fkFn ids) := rfl

theorem fkFn_id (ids : List Nat) (t : Todo) : (fkFn ids t).id = t.id := by
  unfold fkFn
  split
  · split <;> rfl
  · rfl

theorem fkFn_listId (ids : List Nat) (t : Todo) : (fkFn ids t).listId = t.listId := by
  unfold fkFn
  split
  · split <;> rfl
  · rfl

theorem fkFn_rest (ids : List Nat) (t : Todo) :
    (fkFn ids t).text = t.text ∧ (fkFn ids t).completed = t.completed ∧
      (fkFn ids t).isEmpty = t.isEmpty ∧ (fkFn ids t).isIndented = t.isIndented := by
  unfold fkFn
  split
  · split <;> exact ⟨rfl, rfl, rfl, rfl⟩
  · exact ⟨rfl, rfl, rfl, rfl⟩

theorem fkFn_none {ids : List Nat} {t : Todo} (h : t.parentId = none) :
    fkFn ids t = t := by
  unfold fkFn
  rw [h]

theorem fkFn_not_mem {ids : List Nat} {t : Todo} {p : Nat}
    (h : t.parentId = some p) (hm : ids.contains p = false) : fkFn ids t = t := by
  unfold fkFn
  rw [h]
  dsimp only
  rw [hm]
  simp

theorem nodupIds_filter {s : Store} (p : Todo → Bool) (hn : NodupIds s) :
    NodupIds { s with todos := s.todos.filter p } := by
  unfold NodupIds at *
  have hsub : (s.todos.filter p).Sublist s.todos := List.filter_sublist s.todos
  exact List.Nodup.sublist (hsub.map (fun t => t.id)) hn

/-- C5: for an existing item of a well-formed store, deleteTodo with
cascade=false deletes only the target.  The result reports
deletedIds=[id], cascaded=false and liftedIds equal to the ids of the
transitive descendants of the target; membership of the reported
descendant set coincides with reachability of the target along parent
chains; descendants lie in the target's list; every other row survives
with id, listId, text, completed and isEmpty unchanged, descendants
getting a null parent and a cleared indent flag while non-descendants
keep parent and indent; no surviving row is the target and none is new;
and the positions of the target's list are compacted to 1..N. -/
theorem c5_delete_lift (s : Store) (tid : Nat) (target : Todo)
    (hn : NodupIds s) (hpw : ParentWF s) (hacy : Acyclic s)
    (hfind : findTodo s tid = some target) :
    (deleteTodo tid false s).1 =
        .ok ⟨[tid], false, target.listId, descendantIds s tid⟩ ∧
      (∀ t ∈ s.todos, (t.id ∈ descendantIds s tid ↔ Descendant s tid t)) ∧
      (∀ t ∈ s.todos, Descendant s tid t → t.listId = target.listId) ∧
      (∀ t ∈ s.todos, t.id ≠ tid → ∃ u ∈ ((deleteTodo tid false s).2).todos,
        u.id = t.id ∧ u.listId = t.listId ∧ u.text = t.text ∧
        u.completed = t.completed ∧ u.isEmpty = t.isEmpty ∧
        (Descendant s tid t → u.parentId = none ∧ u.isIndented = false) ∧
        (¬ Descendant s tid t → u.parentId = t.parentId ∧ u.isIndented = t.isIndented)) ∧
      (∀ u ∈ ((deleteTodo tid false s).2).todos,
        u.id ≠ tid ∧ ∃ t ∈ s.todos, t.id = u.id) ∧
      contigAt ((deleteTodo tid false s).2) target.listId := by
  have hrun : deleteTodo tid false s =
      (.ok ⟨[tid], false, target.listId, descendantIds s tid⟩,
        compactPositionsTx
          (fkNullParents (removeTodos (liftAll s (descendantIds s tid)) [tid]) [tid])
          target.listId) := by
    unfold deleteTodo
    rw [hfind]
    rfl
  rw [hrun]
  dsimp only
  set desc := descendantIds s tid with hdescdef
  set s2 := fkNullParents (removeTodos (liftAll s desc) [tid]) [tid] with hs2def
  have hn1 : NodupIds (liftAll s desc) :=
    nodupIds_map (liftAll_todos desc s) (fun t => by split <;> rfl) hn
  have hn15 : NodupIds (removeTodos (liftAll s desc) [tid]) :=
    nodupIds_filter _ hn1
  have hn2 : NodupIds s2 :=
    nodupIds_map (fkNull_todos _ _) (fkFn_id _) hn15
  have hs3 := compact_todos s2 target.listId hn2
  refine ⟨rfl, ?_, ?_, ?_, ?_, ?_⟩
  · intro t htm
    exact mem_descendantIds hn hacy htm
  · rintro t htm ⟨k, hk⟩
    exact descendant_listId hn hpw hfind htm hk
  · intro t htm htid
    by_cases hD : desc.contains t.id = true
    · have hDmem : t.id ∈ desc := by simpa using hD
      have hDesc : Descendant s tid t := (mem_descendantIds hn hacy htm).mp hDmem
      have h1 : liftTodo t ∈ (liftAll s desc).todos := by
        rw [liftAll_todos]
        exact List.mem_map.mpr ⟨t, htm, by simp [hDmem]⟩
      have h2 : liftTodo t ∈ (removeTodos (liftAll s desc) [tid]).todos := by
        unfold removeTodos
        refine List.mem_filter.mpr ⟨h1, ?_⟩
        simp [liftTodo_id, htid]
      have h3 : fkFn [tid] (liftTodo t) ∈ s2.todos := by
        rw [hs2def, fkNull_todos]
        exact List.mem_map_of_mem _ h2
      rw [fkFn_none (rfl : (liftTodo t).parentId = none)] at h3
      refine ⟨compactFn (sortPos (listItems s2 target.listId)) (liftTodo t), ?_, ?_, ?_,
        ?_, ?_, ?_, ?_, ?_⟩
      · rw [hs3]
        exact List.mem_map_of_mem _ h3
      · rw [compactFn_id]
        rfl
      · rw [compactFn_listId]
        rfl
      · exact (compactFn_rest _ _).1
      · exact (compactFn_rest _ _).2.1
      · exact (compactFn_rest _ _).2.2.1
      · intro _
        exact ⟨compactFn_parentId _ _, (compactFn_rest _ _).2.2.2⟩
      · intro hnd
        exact absurd hDesc hnd
    · have hDne : ¬ Descendant s tid t := by
        intro hDesc
        exact hD (by simpa using (mem_descendantIds hn hacy htm).mpr hDesc)
      have hDmem2 : t.id ∉ desc := by simpa using hD
      have h1 : t ∈ (liftAll s desc).todos := by
        rw [liftAll_todos]
        exact List.mem_map.mpr ⟨t, htm, by simp [hDmem2]⟩
      have h2 : t ∈ (removeTodos (liftAll s desc) [tid]).todos := by
        unfold removeTodos
        refine List.mem_filter.mpr ⟨h1, ?_⟩
        simp [htid]
      have hfk2 : fkFn [tid] t = t := by
        rcases hp : t.parentId with _ | p
        · exact fkFn_none hp
        · have hpne : p ≠ tid := by
            intro heq
            apply hDne
            exact ⟨0 + 1, by rw [isDescAux_succ, hp]; simp [heq]⟩
          exact fkFn_not_mem hp (by simp [hpne])
      have h3 : fkFn [tid] t ∈ s2.todos := by
        rw [hs2def, fkNull_todos]
        exact List.mem_map_of_mem _ h2
      rw [hfk2] at h3
      refine ⟨compactFn (sortPos (listItems s2 target.listId)) t, ?_, compactFn_id _ _,
        compactFn_listId _ _, (compactFn_rest _ _).1, (compactFn_rest _ _).2.1,
        (compactFn_rest _ _).2.2.1, ?_, ?_⟩
      · rw [hs3]
        exact List.mem_map_of_mem _ h3
      · intro hDesc
        exact absurd hDesc hDne
      · intro _
        exact ⟨compactFn_parentId _ _, (compactFn_rest _ _).2.2.2⟩
  · intro u hu
    rw [hs3] at hu
    rcases List.mem_map.mp hu with ⟨w, hw, rfl⟩
    rw [hs2def, fkNull_todos] at hw
    rcases List.mem_map.mp hw with ⟨v, hv, rfl⟩
    unfold removeTodos at hv
    rcases List.mem_filter.mp hv with ⟨hv1, hv2⟩
    rw [liftAll_todos] at hv1
    rcases List.mem_map.mp hv1 with ⟨t0, ht0, rfl⟩
    have hvid : ((if desc.contains t0.id = true then liftTodo t0 else t0) : Todo).id = t0.id := by
      split <;> rfl
    simp only [Bool.not_eq_true'] at hv2
    constructor
    · rw [compactFn_id, fkFn_id, hvid]
      intro heq
      rw [hvid] at hv2
      simp [heq] at hv2
    · refine ⟨t0, ht0, ?_⟩
      rw [compactFn_id, fkFn_id, hvid]
  · exact compact_contig s2 target.listId hn2

theorem c5_delete_lift_witness :
    NodupIds storeABC ∧ ParentWF storeABC ∧ Acyclic storeABC ∧
      findTodo storeABC 1 = some todoA ∧
      ((deleteTodo 1 false storeABC).1 =
          .ok ⟨[1], false, todoA.listId, descendantIds storeABC 1⟩ ∧
        (∀ t ∈ storeABC.todos,
          (t.id ∈ descendantIds storeABC 1 ↔ Descendant storeABC 1 t)) ∧
        (∀ t ∈ storeABC.todos, Descendant storeABC 1 t → t.listId = todoA.listId) ∧
        (∀ t ∈ storeABC.todos, t.id ≠ 1 → ∃ u ∈ ((deleteTodo 1 false storeABC).2).todos,
          u.id = t.id ∧ u.listId = t.listId ∧ u.text = t.text ∧
          u.completed = t.completed ∧ u.isEmpty = t.isEmpty ∧
          (Descendant storeABC 1 t → u.parentId = none ∧ u.isIndented = false) ∧
          (¬ Descendant storeABC 1 t → u.parentId = t.parentId ∧
            u.isIndented = t.isIndented)) ∧
        (∀ u ∈ ((deleteTodo 1 false storeABC).2).todos,
          u.id ≠ 1 ∧ ∃ t ∈ storeABC.todos, t.id = u.id) ∧
        contigAt ((deleteTodo 1 false storeABC).2) todoA.listId) :=
  ⟨by decide, by decide, by decide, by decide,
    c5_delete_lift storeABC 1 todoA (by decide) (by decide) (by decide) (by decide)⟩

/-! The proposed-map plumbing of updateTodoPositions. -/

theorem mapGet_some_mem {l : List (Nat × Int × Option Nat)} {k : Nat}
    {v : Int × Option Nat} (h : mapGet l k = some v) : k ∈ l.map (fun e => e.1) := by
  unfold mapGet at h
  rcases hf : l.find? (fun e => e.1 == k) with _ | e
  · rw [hf] at h; cases h
  · have hmem := List.mem_of_find?_eq_some hf
    have hk := List.find?_some hf
    have hek : e.1 = k := by simpa using hk
    exact hek ▸ List.mem_map_of_mem _ hmem

theorem mapGet_of_mem_nodup :
    ∀ {l : List (Nat × Int × Option Nat)},
      (l.map (fun e => e.1)).Nodup → ∀ {e}, e ∈ l → mapGet l e.1 = some e.2 := by
  intro l
  induction l with
  | nil =>
    intro _ e he
    cases he
  | cons a rest ih =>
    intro hn e he
    rw [List.map_cons, List.nodup_cons] at hn
    rcases List.mem_cons.mp he with rfl | he2
    · unfold mapGet
      rw [List.find?_cons_of_pos _ (by simp)]
      rfl
    · have hne : (a.1 == e.1) = false := by
        have : a.1 ≠ e.1 := by
          intro heq
          exact hn.1 (heq ▸ List.mem_map_of_mem _ he2)
        simpa using this
      unfold mapGet
      rw [List.find?_cons_of_neg _ (by simp [hne])]
      exact ih hn.2 he2

theorem mapSet_not_mem :
    ∀ {acc : List (Nat × Int × Option Nat)} {k : Nat},
      k ∉ acc.map (fun e => e.1) → ∀ v, mapSet acc k v = acc ++ [(k, v)] := by
  intro acc
  induction acc with
  | nil =>
    intro k _ v
    rfl
  | cons a rest ih =>
    intro k hk v
    rw [List.map_cons, List.mem_cons] at hk
    push_neg at hk
    unfold mapSet
    rw [if_neg (by simpa using Ne.symm hk.1)]
    rw [ih hk.2]
    rfl

theorem buildProposed_ok (s : Store) (L : Nat) :
    ∀ (rows : List PosUpdate) (acc : List (Nat × Int × Option Nat))
      (res : List (Nat × Int × Option Nat)),
      (rows.map (fun r => r.id)).Nodup →
      (∀ r ∈ rows, r.id ∉ acc.map (fun e => e.1)) →
      buildProposed s L rows acc = .ok res →
      res = acc ++ rows.map (fun r => (r.id, r.position, r.parentId)) := by
  intro rows
  induction rows with
  | nil =>
    intro acc res _ _ h
    unfold buildProposed at h
    simp at h
    rw [← h]
    simp
  | cons r rest ih =>
    intro acc res hnod hacc h
    unfold buildProposed at h
    rcases hf : findTodo s r.id with _ | meta
    · simp [hf] at h
    · simp only [hf] at h
      by_cases hL : (meta.listId != L) = true
      · rw [if_pos hL] at h
        exact absurd h (by simp)
      · rw [if_neg hL] at h
        by_cases hself : (r.parentId == some r.id) = true
        · rw [if_pos hself] at h
          exact absurd h (by simp)
        · rw [if_neg hself] at h
          rw [List.map_cons, List.nodup_cons] at hnod
          have hknot : r.id ∉ acc.map (fun e => e.1) := hacc r (List.mem_cons_self _ _)
          rw [mapSet_not_mem hknot] at h
          have hres := ih (acc ++ [(r.id, r.position, r.parentId)]) res hnod.2 ?_ h
          · rw [hres, List.map_cons, List.append_assoc]
            rfl
          · intro q hq
            rw [List.map_append, List.mem_append]
            push_neg
            refine ⟨hacc q (List.mem_cons_of_mem _ hq), ?_⟩
            simp only [List.map_cons, List.map_nil, List.mem_singleton]
            intro heq
            exact hnod.1 (heq ▸ List.mem_map_of_mem _ hq)

theorem buildProposed_error_iff (s : Store) (L : Nat) :
    ∀ (rows : List PosUpdate) (acc : List (Nat × Int × Option Nat)),
      (∃ e, buildProposed s L rows acc = .error e) ↔
      (∃ r ∈ rows, findTodo s r.id = none ∨
        (∃ t, findTodo s r.id = some t ∧ t.listId ≠ L) ∨
        r.parentId = some r.id) := by
  intro rows
  induction rows with
  | nil =>
    intro acc
    unfold buildProposed
    simp
  | cons r rest ih =>
    intro acc
    unfold buildProposed
    rcases hf : findTodo s r.id with _ | meta
    · constructor
      · intro _
        exact ⟨r, List.mem_cons_self _ _, Or.inl hf⟩
      · intro _
        exact ⟨_, rfl⟩
    · dsimp only
      by_cases hL : (meta.listId != L) = true
      · rw [if_pos hL]
        constructor
        · intro _
          exact ⟨r, List.mem_cons_self _ _, Or.inr (Or.inl ⟨meta, hf, by simpa using hL⟩)⟩
        · intro _
          exact ⟨_, rfl⟩
      · rw [if_neg hL]
        by_cases hself : (r.parentId == some r.id) = true
        · rw [if_pos hself]
          constructor
          · intro _
            exact ⟨r, List.mem_cons_self _ _, Or.inr (Or.inr (by simpa using hself))⟩
          · intro _
            exact ⟨_, rfl⟩
        · rw [if_neg hself]
          rw [ih]
          constructor
          · rintro ⟨q, hq, hbad⟩
            exact ⟨q, List.mem_cons_of_mem _ hq, hbad⟩
          · rintro ⟨q, hq, hbad⟩
            rcases List.mem_cons.mp hq with rfl | hq2
            · exfalso
              rcases hbad with h1 | h2 | h3
              · rw [hf] at h1; cases h1
              · rcases h2 with ⟨t, ht, hne⟩
                rw [hf] at ht
                have : meta = t := Option.some.inj ht
                apply hne
                rw [← this]
                simpa using hL
              · exact hself (by simp [h3])
            · exact ⟨q, hq2, hbad⟩

theorem mergedParent_supp (s : Store) (prop : List (Nat × Int × Option Nat)) :
    ∀ x p, mergedParent s prop x = some p →
      x ∈ prop.map (fun e => e.1) ++ s.todos.map (fun t => t.id) := by
  intro x p h
  unfold mergedParent at h
  rcases hg : mapGet prop x with _ | v
  · rw [hg] at h
    exact List.mem_append.mpr (Or.inr (pmap_supp h))
  · rw [hg] at h
    exact List.mem_append.mpr (Or.inl (mapGet_some_mem hg))

theorem validateParents_ok_iff (s : Store) (L : Nat) (m : Nat → Option Nat) (F : Nat)
    (hspec : ∀ i pv, m i = some pv →
      (seenWalk m F [i] (some pv) = some true ↔ ¬ Terminates m i))
    (hnn : ∀ i pv, m i = some pv → seenWalk m F [i] (some pv) ≠ none) :
    ∀ (l : List (Nat × Int × Option Nat)),
      (∀ e ∈ l, ∀ pv, e.2.2 = some pv → m e.1 = some pv) →
      (validateParents s L m F l = .ok () ↔
        ∀ e ∈ l, ∀ pv, e.2.2 = some pv →
          (∃ t, findTodo s pv = some t ∧ t.listId = L) ∧ Terminates m e.1) := by
  intro l
  induction l with
  | nil =>
    intro _
    unfold validateParents
    simp
  | cons e rest ih =>
    intro hl
    have hlrest : ∀ q ∈ rest, ∀ pv, q.2.2 = some pv → m q.1 = some pv :=
      fun q hq => hl q (List.mem_cons_of_mem _ hq)
    unfold validateParents
    rcases hpv : e.2.2 with _ | pv
    · dsimp only
      rw [ih hlrest]
      constructor
      · intro hrest
        intro q hq pv2 hq2
        rcases List.mem_cons.mp hq with rfl | hq3
        · rw [hpv] at hq2; cases hq2
        · exact hrest q hq3 pv2 hq2
      · intro hall q hq
        exact hall q (List.mem_cons_of_mem _ hq)
    · have hme : m e.1 = some pv := hl e (List.mem_cons_self _ _) pv hpv
      dsimp only
      rcases hfp : findTodo s pv with _ | meta
      · dsimp only
        constructor
        · intro h
          exact absurd h (by simp)
        · intro hall
          exfalso
          rcases (hall e (List.mem_cons_self _ _) pv hpv).1 with ⟨t, ht, _⟩
          rw [hfp] at ht
          cases ht
      · dsimp only
        by_cases hL : (meta.listId != L) = true
        · rw [if_pos hL]
          constructor
          · intro h
            exact absurd h (by simp)
          · intro hall
            exfalso
            rcases (hall e (List.mem_cons_self _ _) pv hpv).1 with ⟨t, ht, htL⟩
            rw [hfp] at ht
            have : meta = t := Option.some.inj ht
            rw [← this] at htL
            rw [htL] at hL
            simp at hL
        · rw [if_neg hL]
          rcases hw : seenWalk m F [e.1] (some pv) with _ | b
          · exact absurd hw (hnn e.1 pv hme)
          · rcases b with _ | _
            · dsimp only
              rw [ih hlrest]
              have hterm : Terminates m e.1 :=
                terminates_step hme (seenWalk_false_terminates F [e.1] pv hw)
              constructor
              · intro hrest q hq pv2 hq2
                rcases List.mem_cons.mp hq with rfl | hq3
                · rw [hpv] at hq2
                  have hpv2 : pv = pv2 := Option.some.inj hq2
                  subst hpv2
                  exact ⟨⟨meta, hfp, by simpa using hL⟩, hterm⟩
                · exact hrest q hq3 pv2 hq2
              · intro hall q hq
                exact hall q (List.mem_cons_of_mem _ hq)
            · dsimp only
              constructor
              · intro h
                exact absurd h (by simp)
              · intro hall
                exact absurd ((hspec e.1 pv hme).mp hw)
                  (not_not_intro (hall e (List.mem_cons_self _ _) pv hpv).2)

theorem routeValidate_none_iff (rows : List PosUpdate) :
    routeValidatePositions rows = none ↔
      (rows ≠ [] ∧ (rows.map (fun r => r.id)).Nodup ∧
        (rows.map (fun r => r.position)).Nodup ∧
        ¬ (∃ r ∈ rows, r.position = 1 ∧ r.parentId.isSome = true)) := by
  unfold routeValidatePositions
  by_cases hemp : rows.isEmpty = true
  · rw [if_pos hemp]
    have : rows = [] := by simpa [List.isEmpty_iff] using hemp
    simp [this]
  · rw [if_neg hemp]
    have hne : rows ≠ [] := by simpa [List.isEmpty_iff] using hemp
    rcases hscan : routeDupScan rows [] [] with _ | msg
    · have hnods := (routeDupScan_none_iff rows [] []).mp hscan
      dsimp only
      rcases hfind : rows.find? (fun r => r.position == 1) with _ | top
      · rw [hfind]
        constructor
        · intro _
          refine ⟨hne, hnods.1, hnods.2.1, ?_⟩
          rintro ⟨r, hr, h1, _⟩
          have := List.find?_eq_none.mp hfind r hr
          simp [h1] at this
        · intro _
          rfl
      · rw [hfind]
        dsimp only
        by_cases hps : top.parentId.isSome = true
        · rw [if_pos hps]
          constructor
          · intro h
            cases h
          · rintro ⟨_, _, _, hnot⟩
            exfalso
            apply hnot
            refine ⟨top, List.mem_of_find?_eq_some hfind, ?_, hps⟩
            simpa using List.find?_some hfind
        · rw [if_neg hps]
          constructor
          · intro _
            refine ⟨hne, hnods.1, hnods.2.1, ?_⟩
            rintro ⟨r, hr, h1, hp⟩
            have htop1 : top.position = 1 := by simpa using List.find?_some hfind
            have heq : top = r :=
              nodup_map_inj hnods.2.1 (List.mem_of_find?_eq_some hfind) hr
                (by rw [htop1, h1])
            rw [← heq] at hp
            exact hps hp
          · intro _
            rfl
    · constructor
      · intro h
        cases h
      · rintro ⟨_, hnid, hnpos, _⟩
        exfalso
        have : routeDupScan rows [] [] = none := by
          apply (routeDupScan_none_iff rows [] []).mpr
          exact ⟨hnid, hnpos, by simp, by simp⟩
        rw [hscan] at this
        cases this

/-- C4 (amended): the bulk reposition entry point — route validation plus
the updateTodoPositions transaction — fails with an error exactly when the
payload is empty, carries duplicate ids or duplicate positions, carries a
literal position-1 entry with a non-null parent, references a missing todo,
makes an entry its own parent, or — relative to the list of the first
entry's todo — some entry lies in another list, or proposes a parent that
is missing, in another list, or whose merged parent chain from the entry
never terminates (the batch-rooted cycle check); and it succeeds
otherwise. -/
theorem c4_bulk_failure_iff (rows : List PosUpdate) (s : Store) :
    (∃ e, (bulkReposition rows s).1 = .error e) ↔
      (rows = [] ∨
       ¬ (rows.map (fun r => r.id)).Nodup ∨
       ¬ (rows.map (fun r => r.position)).Nodup ∨
       (∃ r ∈ rows, r.position = 1 ∧ r.parentId.isSome = true) ∨
       (∃ r ∈ rows, findTodo s r.id = none) ∨
       (∃ r ∈ rows, r.parentId = some r.id) ∨
       (∃ r0 first, rows.head? = some r0 ∧ findTodo s r0.id = some first ∧
         ((∃ r ∈ rows, ∃ t, findTodo s r.id = some t ∧ t.listId ≠ first.listId) ∨
          (∃ r ∈ rows, ∃ pv, r.parentId = some pv ∧
            (findTodo s pv = none ∨
             (∃ t, findTodo s pv = some t ∧ t.listId ≠ first.listId) ∨
             ¬ Terminates
               (mergedParent s (rows.map (fun x => (x.id, x.position, x.parentId))))
               r.id))))) := by
  unfold bulkReposition
  rcases hroute : routeValidatePositions rows with _ | msg
  · dsimp only
    rcases (routeValidate_none_iff rows).mp hroute with ⟨hne, hnid, hnpos, hntop⟩
    rcases rows with _ | ⟨r0, rest⟩
    · exact absurd rfl hne
    unfold updateTodoPositions
    dsimp only
    rcases hf0 : findTodo s r0.id with _ | first
    · try rw [hf0]
      try dsimp only
      constructor
      · intro _
        exact Or.inr (Or.inr (Or.inr (Or.inr (Or.inl ⟨r0, List.mem_cons_self _ _, hf0⟩))))
      · intro _
        exact ⟨_, rfl⟩
    · try rw [hf0]
      try dsimp only
      rcases hbp : buildProposed s first.listId (r0 :: rest) [] with e0 | prop
      · try rw [hbp]
        try dsimp only
        have hbad := (buildProposed_error_iff s first.listId (r0 :: rest) []).mp ⟨e0, hbp⟩
        constructor
        · intro _
          rcases hbad with ⟨r, hr, hcase⟩
          rcases hcase with h1 | h2 | h3
          · exact Or.inr (Or.inr (Or.inr (Or.inr (Or.inl ⟨r, hr, h1⟩))))
          · exact Or.inr (Or.inr (Or.inr (Or.inr (Or.inr (Or.inr
              ⟨r0, first, rfl, hf0, Or.inl ⟨r, hr, h2⟩⟩)))))
          · exact Or.inr (Or.inr (Or.inr (Or.inr (Or.inr (Or.inl ⟨r, hr, h3⟩)))))
        · intro _
          exact ⟨_, rfl⟩
      · try rw [hbp]
        try dsimp only
        have hprop : prop = (r0 :: rest).map (fun r => (r.id, r.position, r.parentId)) :=
          buildProposed_ok s first.listId (r0 :: rest) [] prop hnid (by simp) hbp
        have hnobad : ¬ ∃ r ∈ (r0 :: rest), (findTodo s r.id = none ∨
            (∃ t, findTodo s r.id = some t ∧ t.listId ≠ first.listId) ∨
            r.parentId = some r.id) := by
          rw [← buildProposed_error_iff s first.listId (r0 :: rest) []]
          rintro ⟨e0, he0⟩
          rw [hbp] at he0
          cases he0
        set M := mergedParent s prop with hMdef
        set F := s.todos.length + (r0 :: rest).length + 2 with hFdef
        have hkeys : (prop.map (fun e => e.1)).Nodup := by
          rw [hprop, List.map_map]
          exact hnid
        have hment : ∀ q ∈ prop, ∀ pv, q.2.2 = some pv → M q.1 = some pv := by
          intro q hq pv hqpv
          rw [hMdef]
          unfold mergedParent
          rw [mapGet_of_mem_nodup hkeys hq]
          dsimp only
          exact hqpv
        have hlen : prop.length = (r0 :: rest).length := by
          rw [hprop, List.length_map]
        have hsupp := mergedParent_supp s prop
        have hnn : ∀ i pv, M i = some pv → seenWalk M F [i] (some pv) ≠ none := by
          intro i pv hm
          apply seenWalk_ne_none hsupp
          have h1 := List.length_filter_le (fun a => !(([i] : List Nat).contains a))
            (prop.map (fun e => e.1) ++ s.todos.map (fun t => t.id))
          have h2 : (prop.map (fun e => e.1) ++ s.todos.map (fun t => t.id)).length =
              prop.length + s.todos.length := by simp
          omega
        have hspec : ∀ i pv, M i = some pv →
            (seenWalk M F [i] (some pv) = some true ↔ ¬ Terminates M i) := by
          intro i pv hm
          apply seenWalk_spec hm hsupp
          have h2 : (prop.map (fun e => e.1) ++ s.todos.map (fun t => t.id)).length =
              prop.length + s.todos.length := by simp
          omega
        have hval := validateParents_ok_iff s first.listId M F hspec hnn prop hment
        rcases hvp : validateParents s first.listId M F prop with e1 | u
        · try rw [hvp]
          try dsimp only
          constructor
          · intro _
            have hnok : ¬ (validateParents s first.listId M F prop = .ok ()) := by
              rw [hvp]
              simp
            have hexists : ¬ ∀ q ∈ prop, ∀ pv, q.2.2 = some pv →
                (∃ t, findTodo s pv = some t ∧ t.listId = first.listId) ∧
                  Terminates M q.1 :=
              fun hall => hnok (hval.mpr hall)
            push_neg at hexists
            rcases hexists with ⟨q, hq, pv, hqpv, hbadq⟩
            rw [hprop] at hq
            rcases List.mem_map.mp hq with ⟨r, hr, rfl⟩
            refine Or.inr (Or.inr (Or.inr (Or.inr (Or.inr (Or.inr
              ⟨r0, first, rfl, hf0, Or.inr ⟨r, hr, pv, hqpv, ?_⟩⟩)))))
            by_cases hterm : Terminates M r.id
            · have hA : ¬ ∃ t, findTodo s pv = some t ∧ t.listId = first.listId :=
                fun hex => hbadq hex hterm
              rcases hfc : findTodo s pv with _ | t
              · simp [hfc]
              · have hnt : t.listId ≠ first.listId := fun h => hA ⟨t, hfc, h⟩
                exact Or.inr (Or.inl ⟨t, by simp [hfc], hnt⟩)
            · refine Or.inr (Or.inr ?_)
              rw [← hprop]
              exact hterm
          · intro _
            exact ⟨_, rfl⟩
        · rcases u
          try rw [hvp]
          try dsimp only
          constructor
          · rintro ⟨e, he⟩
            simp at he
          · intro hrhs
            exfalso
            have hallgood := hval.mp hvp
            rcases hrhs with hA | hB | hC | hD | hE | hF | hG
            · exact List.cons_ne_nil r0 rest hA
            · exact hB hnid
            · exact hC hnpos
            · exact hntop hD
            · rcases hE with ⟨r, hr, hrnone⟩
              exact hnobad ⟨r, hr, Or.inl hrnone⟩
            · rcases hF with ⟨r, hr, hrself⟩
              exact hnobad ⟨r, hr, Or.inr (Or.inr hrself)⟩
            · rcases hG with ⟨r0q, firstq, hh, hff, hsub⟩
              rw [List.head?_cons] at hh
              have hr0 : r0 = r0q := Option.some.inj hh
              rw [← hr0] at hff
              rw [hf0] at hff
              have hfirst : first = firstq := Option.some.inj hff
              rw [← hfirst] at hsub
              rcases hsub with hX | hY
              · rcases hX with ⟨r, hr, t, hrt, hne2⟩
                exact hnobad ⟨r, hr, Or.inr (Or.inl ⟨t, hrt, hne2⟩)⟩
              · rcases hY with ⟨r, hr, pv, hpv, hcase⟩
                have hq : ((r.id, r.position, r.parentId) : Nat × Int × Option Nat) ∈ prop := by
                  rw [hprop]
                  exact List.mem_map_of_mem _ hr
                have hgood := hallgood _ hq pv hpv
                rcases hcase with h1 | h2 | h3
                · rcases hgood.1 with ⟨t, ht, _⟩
                  rw [h1] at ht
                  cases ht
                · rcases h2 with ⟨t, hfpv2, hne2⟩
                  rcases hgood.1 with ⟨t2, ht2, hL2⟩
                  have htt : t = t2 := Option.some.inj (hfpv2.symm.trans ht2)
                  rw [htt] at hne2
                  exact hne2 hL2
                · apply h3
                  have ht := hgood.2
                  rw [hMdef, hprop] at ht
                  exact ht
  · dsimp only
    constructor
    · intro _
      have hnotnone :
          ¬ (rows ≠ [] ∧ (rows.map (fun r => r.id)).Nodup ∧
            (rows.map (fun r => r.position)).Nodup ∧
            ¬ (∃ r ∈ rows, r.position = 1 ∧ r.parentId.isSome = true)) := by
        intro hc
        have := (routeValidate_none_iff rows).mpr hc
        rw [hroute] at this
        cases this
      by_cases hA : rows = []
      · exact Or.inl hA
      · by_cases hB : (rows.map (fun r => r.id)).Nodup
        · by_cases hC : (rows.map (fun r => r.position)).Nodup
          · by_cases hD : ∃ r ∈ rows, r.position = 1 ∧ r.parentId.isSome = true
            · exact Or.inr (Or.inr (Or.inr (Or.inl hD)))
            · exact absurd ⟨hA, hB, hC, hD⟩ hnotnone
          · exact Or.inr (Or.inr (Or.inl hC))
        · exact Or.inr (Or.inl hB)
    · intro _
      exact ⟨_, rfl⟩

/-- C4 counterexample: the batch [{id 1, position 1, parentId 2}] on a
two-item list satisfies none of the failure conditions the claim lists —
ids unique, positions unique, no self-parent, the referenced todo and the
proposed parent exist in the inferred list, and the merged parent relation
terminates from every node — yet the operation is rejected, because the
route's literal position-1 check also rejects batches. -/
theorem c4_counterexample :
    (∃ e, (bulkReposition [⟨1, 1, some 2⟩] storeAB).1 = .error e) ∧
      (([(⟨1, 1, some 2⟩ : PosUpdate)].map (fun r => r.id)).Nodup ∧
       ([(⟨1, 1, some 2⟩ : PosUpdate)].map (fun r => r.position)).Nodup ∧
       (⟨1, 1, some 2⟩ : PosUpdate).parentId ≠ some (⟨1, 1, some 2⟩ : PosUpdate).id ∧
       (findTodo storeAB 1 = some todoA ∧ todoA.listId = 1) ∧
       (findTodo storeAB 2 = some todoB0 ∧ todoB0.listId = 1) ∧
       (∀ x, Terminates
         (mergedParent storeAB
           ([(⟨1, 1, some 2⟩ : PosUpdate)].map (fun x => (x.id, x.position, x.parentId)))) x)) := by
  refine ⟨⟨.err "Cannot indent the first item in the list", by decide⟩,
    by decide, by decide, by decide, by decide, by decide, ?_⟩
  intro x
  rcases hm : mergedParent storeAB
      ([(⟨1, 1, some 2⟩ : PosUpdate)].map (fun x => (x.id, x.position, x.parentId))) x
    with _ | p
  · exact terminates_of_none hm
  · have hx := mergedParent_supp storeAB _ x p hm
    simp [storeAB, todoA, todoB0] at hx
    rcases hx with rfl | rfl
    · exact ⟨2, by decide⟩
    · exact ⟨1, by decide⟩

/-! Invariant plumbing for sequences of operations (claim C1). -/

theorem contigAt_congr {s1 s2 : Store} {l : Nat}
    (h : listItems s1 l = listItems s2 l) : contigAt s1 l ↔ contigAt s2 l := by
  unfold contigAt
  rw [h]

theorem contigAt_of_posContig {s : Store} (hpc : PosContig s) (l : Nat) :
    contigAt s l := by
  by_cases hnil : listItems s l = []
  · unfold contigAt
    rw [hnil]
    simp
  · rcases List.exists_mem_of_ne_nil _ hnil with ⟨u, hu⟩
    rcases mem_listItems.mp hu with ⟨humem, hul⟩
    exact hpc l (hul ▸ List.mem_map_of_mem _ humem)

theorem posContig_map {s s' : Store} {g : Todo → Todo}
    (h : s'.todos = s.todos.map g) (hl : ∀ t, (g t).listId = t.listId)
    (hp : ∀ t, (g t).position = t.position) (hpc : PosContig s) : PosContig s' := by
  intro l _
  have hc := contigAt_of_posContig hpc l
  unfold contigAt at hc ⊢
  rw [listItems_map h hl l, List.map_map, List.length_map]
  have hcomp : ((fun t => t.position) ∘ g) = (fun (t : Todo) => t.position) :=
    funext (fun t => hp t)
  rw [hcomp]
  exact hc

theorem le_foldr_max_nat : ∀ {l : List Nat} {a : Nat}, a ∈ l → a ≤ l.foldr max 0 := by
  intro l
  induction l with
  | nil =>
    intro a ha
    cases ha
  | cons b t ih =>
    intro a ha
    rw [List.foldr_cons]
    rcases List.mem_cons.mp ha with rfl | hat
    · exact Nat.le_max_left _ _
    · exact Nat.le_trans (ih hat) (Nat.le_max_right _ _)

theorem id_le_maxTodoId {s : Store} {u : Todo} (h : u ∈ s.todos) :
    u.id ≤ maxTodoId s :=
  le_foldr_max_nat (List.mem_map_of_mem (fun t => t.id) h)

theorem parentOkB_append {s : Store} {ts : List Todo} {t : Todo}
    (h : parentOkB s t = true) :
    parentOkB { s with todos := s.todos ++ ts } t = true := by
  rcases hp : t.parentId with _ | p
  · simp [parentOkB, hp]
  · simp only [parentOkB, hp] at h ⊢
    rw [List.any_eq_true] at h ⊢
    rcases h with ⟨u, hu, hcond⟩
    exact ⟨u, List.mem_append.mpr (Or.inl hu), hcond⟩

theorem listItems_append (s : Store) (ts : List Todo) (l : Nat) :
    listItems { s with todos := s.todos ++ ts } l =
      listItems s l ++ ts.filter (fun t => t.listId == l) := by
  unfold listItems
  rw [List.filter_append]

theorem createPosEff_fallback {inp : CreateIn} {s : Store}
    (hfb : createPosFallback (inp.position.map JsNum.num) = true) :
    createPosEff inp s = maxPosOf s (resolveListId inp s) + 1 := by
  unfold createPosEff
  rcases hip : inp.position with _ | v
  · simp
  · have hfb2 : createPosFallback (some (JsNum.num v)) = true := by
      simpa [hip] using hfb
    simp [hfb2]

theorem create_inv {inp : CreateIn} {s : Store} {t : Todo} {s1 : Store}
    (h : createTodo inp s = (.ok t, s1))
    (hfb : createPosFallback (inp.position.map JsNum.num) = true)
    (hn : NodupIds s) (hpc : PosContig s) (hpw : ParentWF s) :
    NodupIds s1 ∧ PosContig s1 ∧ ParentWF s1 := by
  rcases createTodo_ok_result h with ⟨ht, hs1⟩
  have htid : t.id = maxTodoId s + 1 := by rw [ht]
  have htl : t.listId = resolveListId inp s := by rw [ht]
  have htpos : t.position = maxPosOf s (resolveListId inp s) + 1 := by
    rw [ht]
    dsimp only
    rw [createPosEff_fallback hfb]
  refine ⟨?_, ?_, ?_⟩
  · rw [hs1]
    unfold NodupIds
    dsimp only
    rw [List.map_append]
    apply List.Nodup.append hn (by simp)
    intro a ha hb
    simp at hb
    rcases List.mem_map.mp ha with ⟨u, hu, rfl⟩
    have h1 := id_le_maxTodoId hu
    rw [htid] at hb
    omega
  · intro l2 _
    by_cases hl2 : l2 = resolveListId inp s
    · subst hl2
      have hli : listItems s1 (resolveListId inp s) =
          listItems s (resolveListId inp s) ++ [t] := by
        rw [hs1, listItems_append]
        have : [t].filter (fun u => u.listId == resolveListId inp s) = [t] := by
          simp [List.filter, htl]
        rw [this]
      have hc := contigAt_of_posContig hpc (resolveListId inp s)
      have hmax := maxPos_of_contig hc
      unfold contigAt
      rw [hli, List.map_append, List.length_append]
      simp only [List.map_cons, List.map_nil, List.length_cons, List.length_nil]
      rw [htpos, hmax]
      rw [List.range_succ, List.map_append]
      unfold contigAt at hc
      apply List.Perm.append hc
      simp
    · have hli : listItems s1 l2 = listItems s l2 := by
        rw [hs1, listItems_append]
        have hne : (t.listId == l2) = false := by
          rw [htl]
          simp
          omega
        have : [t].filter (fun u => u.listId == l2) = [] := by
          simp [List.filter, hne]
        rw [this, List.append_nil]
      rw [contigAt_congr hli]
      exact contigAt_of_posContig hpc l2
  · intro u hu
    rw [hs1] at hu
    rcases List.mem_append.mp hu with hu1 | hu2
    · rw [hs1]
      exact parentOkB_append (hpw u hu1)
    · simp at hu2
      subst hu2
      rw [hs1]
      rcases hip : inp.parentId with _ | pid
      · have htp : u.parentId = none := by rw [ht]; dsimp only; exact hip
        simp [parentOkB, htp]
      · rcases createTodo_ok_parent h pid hip with ⟨pr, hpr, hprl⟩
        have htp : u.parentId = some pid := by rw [ht]; dsimp only; exact hip
        simp only [parentOkB, htp]
        rw [List.any_eq_true]
        refine ⟨pr, ?_, ?_⟩
        · dsimp only
          exact List.mem_append.mpr (Or.inl (findTodo_eq_some hpr).1)
        · rw [Bool.and_eq_true, beq_iff_eq, beq_iff_eq]
          refine ⟨(findTodo_eq_some hpr).2, ?_⟩
          rw [hprl, htl]

theorem applyPatch_pos_free {p : UpdatePatch} (tp : Option Nat) (t : Todo)
    (hfree : patchPosFree p = true) : (applyPatch p tp t).position = t.position := by
  rcases hpos : p.position with _ | (_ | v)
  · unfold applyPatch
    rcases p.text with _ | a <;> rcases p.completed with _ | b <;>
      rcases p.isEmpty with _ | c <;> rcases p.parentId with _ | d <;>
      rcases p.isIndented with _ | e <;> simp [hpos]
  · unfold applyPatch
    rcases p.text with _ | a <;> rcases p.completed with _ | b <;>
      rcases p.isEmpty with _ | c <;> rcases p.parentId with _ | d <;>
      rcases p.isIndented with _ | e <;> simp [hpos]
  · unfold patchPosFree at hfree
    rw [hpos] at hfree
    simp at hfree

theorem applyPatch_parentId (p : UpdatePatch) (tp : Option Nat) (t : Todo) :
    (applyPatch p tp t).parentId =
      (match p.parentId with | some v => v | none => t.parentId) := by
  unfold applyPatch
  rcases p.text with _ | a <;> rcases p.completed with _ | b <;>
    rcases p.isEmpty with _ | c <;> rcases p.parentId with _ | d <;>
    rcases p.isIndented with _ | e <;> rcases p.position with _ | (_ | v) <;> simp

theorem parentOkB_iff {s : Store} {u : Todo} {pid : Nat} (hp : u.parentId = some pid) :
    (parentOkB s u = true ↔ ∃ w ∈ s.todos, w.id = pid ∧ w.listId = u.listId) := by
  simp only [parentOkB, hp]
  rw [List.any_eq_true]
  constructor
  · rintro ⟨w, hw, hcond⟩
    rw [Bool.and_eq_true, beq_iff_eq, beq_iff_eq] at hcond
    exact ⟨w, hw, hcond⟩
  · rintro ⟨w, hw, h1, h2⟩
    refine ⟨w, hw, ?_⟩
    rw [Bool.and_eq_true, beq_iff_eq, beq_iff_eq]
    exact ⟨h1, h2⟩

theorem pair_witness {s s' : Store}
    (hpair : s'.todos.map (fun t => (t.id, t.listId)) =
      s.todos.map (fun t => (t.id, t.listId)))
    {pid L : Nat} (hex : ∃ u ∈ s.todos, u.id = pid ∧ u.listId = L) :
    ∃ u ∈ s'.todos, u.id = pid ∧ u.listId = L := by
  rcases hex with ⟨u, hu, h1, h2⟩
  have hmem : (pid, L) ∈ s'.todos.map (fun t => (t.id, t.listId)) := by
    rw [hpair]
    exact List.mem_map.mpr ⟨u, hu, by rw [h1, h2]⟩
  rcases List.mem_map.mp hmem with ⟨w, hw, he⟩
  rcases Prod.ext_iff.mp he with ⟨he1, he2⟩
  exact ⟨w, hw, he1, he2⟩

theorem updateTodo_ok_state {tid : Nat} {p : UpdatePatch} {s : Store} {t : Todo}
    {s1 : Store} (h : updateTodo tid p s = (.ok t, s1)) :
    s1 = s ∨
      ∃ row tp, findTodo s tid = some row ∧
        tp = (match p.parentId with | some v => v | none => row.parentId) ∧
        s1 = updRow s tid (applyPatch p tp) ∧
        (∀ pv, tp = some pv →
          ∃ pr, findTodo s pv = some pr ∧ pr.listId = row.listId) := by
  unfold updateTodo at h
  rcases hfind : findTodo s tid with _ | row
  · rw [hfind] at h
    exact absurd h (by simp)
  · rw [hfind] at h
    dsimp only at h
    rcases hpck : (match (match p.parentId with
        | some v => v | none => row.parentId : Option Nat) with
      | none => Except.ok ()
      | some tp =>
        if tp == tid then Except.error (EngineErr.err "Cannot set parent to self")
        else
          match findTodo s tp with
          | none => Except.error (EngineErr.err "Parent todo not found")
          | some pr =>
            if pr.listId != row.listId then
              Except.error (EngineErr.err "Parent must be in the same list")
            else
              match ancestorWalk s tid tp with
              | some true => Except.error (EngineErr.err "Cannot create cyclic parent relationship")
              | some false => Except.ok ()
              | none => Except.error EngineErr.diverge) with e | uu
    · rw [hpck] at h
      exact absurd h (by simp)
    · rw [hpck] at h
      dsimp only at h
      by_cases hguard : ((match p.parentId with
          | some v => v | none => row.parentId : Option Nat).isSome &&
            ((match p.position with
              | some (some v) => v | some none => 0 | none => row.position : Int) == 1)) = true
      · rw [if_pos hguard] at h
        exact absurd h (by simp)
      · rw [if_neg hguard] at h
        by_cases hset : (!(patchHasSet p)) = true
        · rw [if_pos hset] at h
          rw [Prod.mk.injEq] at h
          exact Or.inl h.2.symm
        · rw [if_neg hset] at h
          right
          refine ⟨row, _, rfl, rfl, ?_, ?_⟩
          · rcases hft : findTodo (updRow s tid (applyPatch p
                (match p.parentId with | some v => v | none => row.parentId))) tid
              with _ | t1
            · rw [hft] at h
              rw [Prod.mk.injEq] at h
              exact absurd h.1 (by simp)
            · rw [hft] at h
              rw [Prod.mk.injEq] at h
              exact h.2.symm
          · intro pv hpv
            rw [hpv] at hpck
            dsimp only at hpck
            by_cases hself : (pv == tid) = true
            · rw [if_pos hself] at hpck
              exact absurd hpck (by simp)
            · rw [if_neg hself] at hpck
              rcases hfp : findTodo s pv with _ | pr
              · rw [hfp] at hpck
                exact absurd hpck (by simp)
              · rw [hfp] at hpck
                dsimp only at hpck
                by_cases hLL : (pr.listId != row.listId) = true
                · rw [if_pos hLL] at hpck
                  exact absurd hpck (by simp)
                · refine ⟨pr, rfl, ?_⟩
                  simpa using hLL

theorem update_inv {tid : Nat} {p : UpdatePatch} {s : Store} {t : Todo} {s1 : Store}
    (h : updateTodo tid p s = (.ok t, s1)) (hfree : patchPosFree p = true)
    (hn : NodupIds s) (hpc : PosContig s) (hpw : ParentWF s) :
    NodupIds s1 ∧ PosContig s1 ∧ ParentWF s1 := by
  rcases updateTodo_ok_state h with rfl | ⟨row, tp, hfind, htp, hs1, hpar⟩
  · exact ⟨hn, hpc, hpw⟩
  · have hrowmem := (findTodo_eq_some hfind).1
    have hrowid := (findTodo_eq_some hfind).2
    have hmap : s1.todos = s.todos.map
        (fun u => if u.id == tid then applyPatch p tp u else u) := by
      rw [hs1]
      rfl
    have hid : ∀ u : Todo,
        ((fun u => if u.id == tid then applyPatch p tp u else u) u).id = u.id := by
      intro u
      dsimp only
      split
      · exact applyPatch_id p tp u
      · rfl
    have hlid : ∀ u : Todo,
        ((fun u => if u.id == tid then applyPatch p tp u else u) u).listId = u.listId := by
      intro u
      dsimp only
      split
      · exact applyPatch_listId p tp u
      · rfl
    have hposf : ∀ u : Todo,
        ((fun u => if u.id == tid then applyPatch p tp u else u) u).position =
          u.position := by
      intro u
      dsimp only
      split
      · exact applyPatch_pos_free tp u hfree
      · rfl
    have hpair : s1.todos.map (fun u => (u.id, u.listId)) =
        s.todos.map (fun u => (u.id, u.listId)) := by
      rw [hs1]
      exact updRow_map_pair s tid _ (fun u => applyPatch_id p tp u)
        (fun u => applyPatch_listId p tp u)
    refine ⟨nodupIds_map hmap hid hn, posContig_map hmap hlid hposf hpc, ?_⟩
    intro w hw
    rw [hmap] at hw
    rcases List.mem_map.mp hw with ⟨u, hu, rfl⟩
    by_cases hut : (u.id == tid) = true
    · have hueq : u = row := nodup_id_inj hn hu hrowmem (by rw [hrowid]; simpa using hut)
      rw [if_pos hut]
      have hpid : (applyPatch p tp u).parentId = tp := by
        rw [applyPatch_parentId]
        rcases hpp : p.parentId with _ | v
        · simp only [hpp]
          rw [htp]
          simp only [hpp]
          rw [hueq]
        · simp only [hpp]
          rw [htp]
          simp only [hpp]
      rcases htpv : tp with _ | pv
      · rw [htpv] at hpid
        simp [parentOkB, hpid]
      · rw [htpv] at hpid hpar
        rw [parentOkB_iff hpid]
        apply pair_witness hpair
        rcases hpar pv rfl with ⟨pr, hpr, hprL⟩
        refine ⟨pr, (findTodo_eq_some hpr).1, (findTodo_eq_some hpr).2, ?_⟩
        rw [applyPatch_listId, hueq]
        exact hprL
    · rw [if_neg hut]
      rcases hupp : u.parentId with _ | pid
      · simp [parentOkB, hupp]
      · rw [parentOkB_iff hupp]
        apply pair_witness hpair
        exact (parentOkB_iff hupp).mp (hpw u hu)

theorem pair_map_of {s s' : Store} {g : Todo → Todo} (h : s'.todos = s.todos.map g)
    (hid : ∀ t, (g t).id = t.id) (hl : ∀ t, (g t).listId = t.listId) :
    s'.todos.map (fun t => (t.id, t.listId)) =
      s.todos.map (fun t => (t.id, t.listId)) := by
  rw [h, List.map_map]
  apply List.map_congr_left
  intro t _
  simp [Function.comp, hid, hl]

theorem nodupIds_of_pair {s s' : Store}
    (hpair : s'.todos.map (fun t => (t.id, t.listId)) =
      s.todos.map (fun t => (t.id, t.listId)))
    (hn : NodupIds s) : NodupIds s' := by
  unfold NodupIds at *
  have hcg := congrArg (List.map Prod.fst) hpair
  rw [List.map_map, List.map_map] at hcg
  have hcomp : (Prod.fst ∘ (fun (t : Todo) => (t.id, t.listId))) =
      fun (t : Todo) => t.id := rfl
  rw [hcomp] at hcg
  rw [hcg]
  exact hn

theorem mapSet_fst : ∀ (acc : List (Nat × Int × Option Nat)) (k : Nat)
    (v : Int × Option Nat) (k0 : Nat),
    k0 ∈ (mapSet acc k v).map (fun e => e.1) →
      k0 ∈ acc.map (fun e => e.1) ∨ k0 = k := by
  intro acc
  induction acc with
  | nil =>
    intro k v k0 h
    simp [mapSet] at h
    exact Or.inr h
  | cons a rest ih =>
    intro k v k0 h
    unfold mapSet at h
    by_cases hak : (a.1 == k) = true
    · rw [if_pos hak] at h
      simp only [List.map_cons, List.mem_cons] at h
      rcases h with h | h
      · exact Or.inl (by simp [h])
      · exact Or.inl (by simp [h])
    · rw [if_neg hak] at h
      simp only [List.map_cons, List.mem_cons] at h
      rcases h with h | h
      · exact Or.inl (by simp [h])
      · rcases ih k v k0 h with h2 | h2
        · exact Or.inl (by simp only [List.map_cons, List.mem_cons]; exact Or.inr h2)
        · exact Or.inr h2

theorem mapSet_keys_nodup : ∀ (acc : List (Nat × Int × Option Nat)) (k : Nat)
    (v : Int × Option Nat),
    (acc.map (fun e => e.1)).Nodup → ((mapSet acc k v).map (fun e => e.1)).Nodup := by
  intro acc
  induction acc with
  | nil =>
    intro k v _
    simp [mapSet]
  | cons a rest ih =>
    intro k v hn
    rw [List.map_cons, List.nodup_cons] at hn
    unfold mapSet
    by_cases hak : (a.1 == k) = true
    · rw [if_pos hak]
      rw [List.map_cons, List.nodup_cons]
      exact ⟨hn.1, hn.2⟩
    · rw [if_neg hak]
      rw [List.map_cons, List.nodup_cons]
      refine ⟨?_, ih k v hn.2⟩
      intro hmem
      rcases mapSet_fst rest k v a.1 hmem with h2 | h2
      · exact hn.1 h2
      · rw [h2] at hak
        simp at hak

theorem buildProposed_keys_nodup (s : Store) (L : Nat) :
    ∀ (rows : List PosUpdate) (acc res : List (Nat × Int × Option Nat)),
      buildProposed s L rows acc = .ok res →
      (acc.map (fun e => e.1)).Nodup → (res.map (fun e => e.1)).Nodup := by
  intro rows
  induction rows with
  | nil =>
    intro acc res h hacc
    unfold buildProposed at h
    simp at h
    rw [← h]
    exact hacc
  | cons r rest ih =>
    intro acc res h hacc
    unfold buildProposed at h
    rcases hf : findTodo s r.id with _ | meta
    · simp [hf] at h
    · simp only [hf] at h
      by_cases hL : (meta.listId != L) = true
      · rw [if_pos hL] at h
        exact absurd h (by simp)
      · rw [if_neg hL] at h
        by_cases hself : (r.parentId == some r.id) = true
        · rw [if_pos hself] at h
          exact absurd h (by simp)
        · rw [if_neg hself] at h
          exact ih _ res h (mapSet_keys_nodup acc r.id _ hacc)

theorem buildProposed_keys_found (s : Store) (L : Nat) :
    ∀ (rows : List PosUpdate) (acc res : List (Nat × Int × Option Nat)),
      buildProposed s L rows acc = .ok res →
      (∀ k ∈ acc.map (fun e => e.1), ∃ meta, findTodo s k = some meta ∧ meta.listId = L) →
      ∀ k ∈ res.map (fun e => e.1), ∃ meta, findTodo s k = some meta ∧ meta.listId = L := by
  intro rows
  induction rows with
  | nil =>
    intro acc res h hacc
    unfold buildProposed at h
    simp at h
    rw [← h]
    exact hacc
  | cons r rest ih =>
    intro acc res h hacc
    unfold buildProposed at h
    rcases hf : findTodo s r.id with _ | meta
    · simp [hf] at h
    · simp only [hf] at h
      by_cases hL : (meta.listId != L) = true
      · rw [if_pos hL] at h
        exact absurd h (by simp)
      · rw [if_neg hL] at h
        by_cases hself : (r.parentId == some r.id) = true
        · rw [if_pos hself] at h
          exact absurd h (by simp)
        · rw [if_neg hself] at h
          apply ih _ res h
          intro k hk
          rcases mapSet_fst acc r.id _ k hk with h2 | h2
          · exact hacc k h2
          · rw [h2]
            exact ⟨meta, hf, by simpa using hL⟩

theorem validateParents_ok_parents (s : Store) (L : Nat) (m : Nat → Option Nat)
    (F : Nat) :
    ∀ (l : List (Nat × Int × Option Nat)),
      validateParents s L m F l = .ok () →
      ∀ e ∈ l, ∀ pv, e.2.2 = some pv →
        ∃ t, findTodo s pv = some t ∧ t.listId = L := by
  intro l
  induction l with
  | nil =>
    intro _ e he
    cases he
  | cons e rest ih =>
    intro h q hq pv hqpv
    unfold validateParents at h
    rcases hpv : e.2.2 with _ | pv0
    · rw [hpv] at h
      dsimp only at h
      rcases List.mem_cons.mp hq with rfl | hq2
      · rw [hpv] at hqpv
        cases hqpv
      · exact ih h q hq2 pv hqpv
    · rw [hpv] at h
      dsimp only at h
      rcases hfp : findTodo s pv0 with _ | meta
      · rw [hfp] at h
        exact absurd h (by simp)
      · rw [hfp] at h
        dsimp only at h
        by_cases hL : (meta.listId != L) = true
        · rw [if_pos hL] at h
          exact absurd h (by simp)
        · rw [if_neg hL] at h
          rcases hw : seenWalk m F [e.1] (some pv0) with _ | b
          · rw [hw] at h
            exact absurd h (by simp)
          · rw [hw] at h
            rcases b with _ | _
            · dsimp only at h
              rcases List.mem_cons.mp hq with rfl | hq2
              · rw [hpv] at hqpv
                have : pv0 = pv := Option.some.inj hqpv
                subst this
                exact ⟨meta, hfp, by simpa using hL⟩
              · exact ih h q hq2 pv hqpv
            · dsimp only at h
              exact absurd h (by simp)

theorem applyBulk_map_pair : ∀ (l : List (Nat × Int × Option Nat)) (s : Store),
    (applyBulk s l).todos.map (fun t => (t.id, t.listId)) =
      s.todos.map (fun t => (t.id, t.listId)) := by
  intro l
  induction l with
  | nil =>
    intro s
    rfl
  | cons e rest ih =>
    intro s
    have hstep : applyBulk s (e :: rest) = applyBulk
        (updRow s e.1 (fun t =>
          { t with position := e.2.1, parentId := e.2.2, isIndented := e.2.2.isSome }))
        rest := rfl
    rw [hstep, ih]
    exact updRow_map_pair s e.1 _ (fun t => rfl) (fun t => rfl)

theorem applyBulk_parent_sources : ∀ (l : List (Nat × Int × Option Nat)) (s : Store),
    ∀ u ∈ (applyBulk s l).todos, ∃ u0 ∈ s.todos, u.id = u0.id ∧ u.listId = u0.listId ∧
      (u.parentId = u0.parentId ∨ ∃ e ∈ l, u.parentId = e.2.2 ∧ u.id = e.1) := by
  intro l
  induction l with
  | nil =>
    intro s u hu
    exact ⟨u, hu, rfl, rfl, Or.inl rfl⟩
  | cons e rest ih =>
    intro s u hu
    have hstep : applyBulk s (e :: rest) = applyBulk
        (updRow s e.1 (fun t =>
          { t with position := e.2.1, parentId := e.2.2, isIndented := e.2.2.isSome }))
        rest := rfl
    rw [hstep] at hu
    rcases ih _ u hu with ⟨u1, hu1, hid1, hlid1, hsrc1⟩
    unfold updRow at hu1
    rcases List.mem_map.mp hu1 with ⟨u0, hu0, heq⟩
    by_cases hu0t : (u0.id == e.1) = true
    · rw [if_pos hu0t] at heq
      refine ⟨u0, hu0, ?_, ?_, ?_⟩
      · rw [hid1, ← heq]
      · rw [hlid1, ← heq]
      · rcases hsrc1 with h1 | ⟨e2, he2, hpe2, hide2⟩
        · right
          refine ⟨e, List.mem_cons_self _ _, ?_, ?_⟩
          · rw [h1, ← heq]
          · rw [hid1, ← heq]
            simpa using hu0t
        · exact Or.inr ⟨e2, List.mem_cons_of_mem _ he2, hpe2, hide2⟩
    · rw [if_neg hu0t] at heq
      subst heq
      refine ⟨u0, hu0, hid1, hlid1, ?_⟩
      rcases hsrc1 with h1 | ⟨e2, he2, hpe2, hide2⟩
      · exact Or.inl h1
      · exact Or.inr ⟨e2, List.mem_cons_of_mem _ he2, hpe2, hide2⟩

theorem applyBulk_listItems_other : ∀ (l : List (Nat × Int × Option Nat)) (s : Store)
    (L l2 : Nat),
    (∀ e ∈ l, ∀ u ∈ s.todos, u.id = e.1 → u.listId = L) → l2 ≠ L →
    listItems (applyBulk s l) l2 = listItems s l2 := by
  intro l
  induction l with
  | nil =>
    intro s L l2 _ _
    rfl
  | cons e rest ih =>
    intro s L l2 hin hne
    have hstep : applyBulk s (e :: rest) = applyBulk
        (updRow s e.1 (fun t =>
          { t with position := e.2.1, parentId := e.2.2, isIndented := e.2.2.isSome }))
        rest := rfl
    rw [hstep]
    have h1 : listItems (updRow s e.1 (fun t =>
        { t with position := e.2.1, parentId := e.2.2, isIndented := e.2.2.isSome })) l2 =
        listItems s l2 := by
      unfold listItems updRow
      dsimp only
      rw [List.filter_map]
      have hpg : ((fun t => t.listId == l2) ∘ (fun t =>
          if t.id == e.1 then
            { t with position := e.2.1, parentId := e.2.2, isIndented := e.2.2.isSome }
          else t)) = (fun (t : Todo) => t.listId == l2) := by
        funext t
        simp only [Function.comp]
        split
        · rfl
        · rfl
      rw [hpg]
      conv_rhs => rw [← List.map_id (List.filter (fun t => t.listId == l2) s.todos)]
      apply List.map_congr_left
      intro t ht
      rcases List.mem_filter.mp ht with ⟨htm, htl⟩
      have htl2 : t.listId = l2 := by simpa using htl
      by_cases hte : (t.id == e.1) = true
      · exfalso
        have := hin e (List.mem_cons_self _ _) t htm (by simpa using hte)
        rw [htl2] at this
        exact hne this
      · rw [if_neg hte]
        rfl
    rw [← h1]
    apply ih
    · intro e2 he2 u hu hue
      unfold updRow at hu
      rcases List.mem_map.mp hu with ⟨u0, hu0, heq⟩
      by_cases hu0t : (u0.id == e.1) = true
      · rw [if_pos hu0t] at heq
        have : u0.listId = L := by
          apply hin e2 (List.mem_cons_of_mem _ he2) u0 hu0
          rw [← hue, ← heq]
        rw [← heq]
        exact this
      · rw [if_neg hu0t] at heq
        subst heq
        exact hin e2 (List.mem_cons_of_mem _ he2) u0 hu0 hue
    · exact hne

theorem bulk_inv {rows : List PosUpdate} {s : Store} {res : BulkRes} {s2 : Store}
    (h : updateTodoPositions rows s = (.ok res, s2))
    (hn : NodupIds s) (hpc : PosContig s) (hpw : ParentWF s) :
    NodupIds s2 ∧ PosContig s2 ∧ ParentWF s2 := by
  rcases rows with _ | ⟨r0, rest⟩
  · unfold updateTodoPositions at h
    rw [Prod.mk.injEq] at h
    rw [← h.2]
    exact ⟨hn, hpc, hpw⟩
  · unfold updateTodoPositions at h
    dsimp only at h
    rcases hf0 : findTodo s r0.id with _ | first
    · rw [hf0] at h
      rw [Prod.mk.injEq] at h
      exact absurd h.1 (by simp)
    · rw [hf0] at h
      dsimp only at h
      rcases hbp : buildProposed s first.listId (r0 :: rest) [] with e0 | prop
      · rw [hbp] at h
        rw [Prod.mk.injEq] at h
        exact absurd h.1 (by simp)
      · rw [hbp] at h
        dsimp only at h
        rcases hvp : validateParents s first.listId (mergedParent s prop)
            (s.todos.length + (r0 :: rest).length + 2) prop with e1 | uu
        · rw [hvp] at h
          rw [Prod.mk.injEq] at h
          exact absurd h.1 (by simp)
        · rw [hvp] at h
          dsimp only at h
          rw [Prod.mk.injEq] at h
          have hs2 : s2 = compactPositionsTx (applyBulk s prop) first.listId := h.2.symm
          rcases uu
          have hkeysfound := buildProposed_keys_found s first.listId (r0 :: rest) [] prop
            hbp (by simp)
          have hrowsL : ∀ e ∈ prop, ∀ u ∈ s.todos, u.id = e.1 → u.listId = first.listId := by
            intro e he u hu hue
            rcases hkeysfound e.1 (List.mem_map_of_mem _ he) with ⟨meta, hfme, hmeL⟩
            have humeta : u = meta :=
              nodup_id_inj hn hu (findTodo_eq_some hfme).1
                (by rw [hue, (findTodo_eq_some hfme).2])
            rw [humeta]
            exact hmeL
          have hparfound := validateParents_ok_parents s first.listId (mergedParent s prop)
            (s.todos.length + (r0 :: rest).length + 2) prop hvp
          have hnb : NodupIds (applyBulk s prop) :=
            nodupIds_of_pair (applyBulk_map_pair prop s) hn
          have hn2 : NodupIds s2 := by
            rw [hs2]
            exact nodupIds_map (compact_todos _ _ hnb)
              (compactFn_id (sortPos (listItems (applyBulk s prop) first.listId))) hnb
          have hpair2 : s2.todos.map (fun t => (t.id, t.listId)) =
              s.todos.map (fun t => (t.id, t.listId)) := by
            rw [hs2]
            rw [pair_map_of (compact_todos _ _ hnb)
              (compactFn_id (sortPos (listItems (applyBulk s prop) first.listId)))
              (compactFn_listId (sortPos (listItems (applyBulk s prop) first.listId)))]
            exact applyBulk_map_pair prop s
          refine ⟨hn2, ?_, ?_⟩
          · intro l2 _
            by_cases hl2 : l2 = first.listId
            · subst hl2
              rw [hs2]
              exact compact_contig _ _ hnb
            · have hli : listItems s2 l2 = listItems s l2 := by
                rw [hs2]
                rw [compact_listItems_other _ _ _ hnb hl2]
                exact applyBulk_listItems_other prop s first.listId l2 hrowsL hl2
              rw [contigAt_congr hli]
              exact contigAt_of_posContig hpc l2
          · intro u2 hu2
            have hu2m : u2 ∈ (applyBulk s prop).todos.map
                (compactFn (sortPos (listItems (applyBulk s prop) first.listId))) := by
              rw [← compact_todos _ _ hnb, ← hs2]
              exact hu2
            rcases List.mem_map.mp hu2m with ⟨u1, hu1, rfl⟩
            rcases applyBulk_parent_sources prop s u1 hu1 with ⟨u0, hu0, hid0, hlid0, hsrc⟩
            rcases hpu : u1.parentId with _ | pv
            · have : (compactFn (sortPos (listItems (applyBulk s prop) first.listId))
                  u1).parentId = none := by
                rw [compactFn_parentId, hpu]
              simp [parentOkB, this]
            · have hcfp : (compactFn (sortPos (listItems (applyBulk s prop) first.listId))
                  u1).parentId = some pv := by
                rw [compactFn_parentId, hpu]
              rw [parentOkB_iff hcfp]
              apply pair_witness hpair2
              have hcfl : (compactFn (sortPos (listItems (applyBulk s prop) first.listId))
                  u1).listId = u1.listId :=
                compactFn_listId _ _
              rcases hsrc with h1 | ⟨e, he, hpe, hide⟩
              · -- parent kept from the original row
                have h0p : u0.parentId = some pv := by rw [← h1, hpu]
                rcases (parentOkB_iff h0p).mp (hpw u0 hu0) with ⟨w, hw, hwid, hwl⟩
                refine ⟨w, hw, hwid, ?_⟩
                rw [hwl, hcfl, hlid0]
              · -- parent assigned from the batch entry e
                have hpe2 : e.2.2 = some pv := by rw [← hpe, hpu]
                rcases hparfound e he pv hpe2 with ⟨pr, hfpr, hprL⟩
                refine ⟨pr, (findTodo_eq_some hfpr).1, (findTodo_eq_some hfpr).2, ?_⟩
                rw [hprL, hcfl]
                have hu0L : u0.listId = first.listId :=
                  hrowsL e he u0 hu0 (by rw [← hid0, hide])
                rw [hlid0, hu0L]

theorem fkFn_position (ids : List Nat) (t : Todo) :
    (fkFn ids t).position = t.position := by
  unfold fkFn
  split
  · split <;> rfl
  · rfl

theorem fkFn_parent_some {ids : List Nat} {t : Todo} {pv : Nat}
    (h : (fkFn ids t).parentId = some pv) :
    t.parentId = some pv ∧ ids.contains pv = false := by
  rcases hp : t.parentId with _ | p
  · rw [fkFn_none hp, hp] at h
    cases h
  · by_cases hc : (ids.contains p) = true
    · have hnull : fkFn ids t = { t with parentId := none } := by
        unfold fkFn
        rw [hp]
        dsimp only
        rw [if_pos hc]
      rw [hnull] at h
      exact absurd h (by simp)
    · have hcf : fkFn ids t = t := fkFn_not_mem hp (by simpa using hc)
      rw [hcf, hp] at h
      have hppv : p = pv := Option.some.inj h
      subst hppv
      exact ⟨rfl, by simpa using hc⟩

theorem removeChain_inv {s sPre : Store} {lfn : Todo → Todo} {dels : List Nat} {L : Nat}
    (hPre : sPre.todos = s.todos.map lfn)
    (hlid : ∀ t, (lfn t).id = t.id) (hll : ∀ t, (lfn t).listId = t.listId)
    (hlp : ∀ t, (lfn t).position = t.position)
    (hlpar : ∀ t pv, (lfn t).parentId = some pv → t.parentId = some pv)
    (hdelL : ∀ u ∈ s.todos, u.id ∈ dels → u.listId = L)
    (hn : NodupIds s) (hpc : PosContig s) (hpw : ParentWF s) :
    NodupIds (compactPositionsTx (fkNullParents (removeTodos sPre dels) dels) L) ∧
    PosContig (compactPositionsTx (fkNullParents (removeTodos sPre dels) dels) L) ∧
    ParentWF (compactPositionsTx (fkNullParents (removeTodos sPre dels) dels) L) := by
  have hnPre : NodupIds sPre := nodupIds_map hPre hlid hn
  have hnRem : NodupIds (removeTodos sPre dels) := nodupIds_filter _ hnPre
  have hnMid : NodupIds (fkNullParents (removeTodos sPre dels) dels) :=
    nodupIds_map (fkNull_todos _ _) (fkFn_id _) hnRem
  have hMidTodos : (fkNullParents (removeTodos sPre dels) dels).todos =
      ((s.todos.map lfn).filter (fun t => !(dels.contains t.id))).map (fkFn dels) := by
    rw [fkNull_todos]
    unfold removeTodos
    rw [hPre]
  have hliMid : ∀ l2, l2 ≠ L →
      listItems (fkNullParents (removeTodos sPre dels) dels) l2 =
        (listItems s l2).map (fun t => fkFn dels (lfn t)) := by
    intro l2 hl2
    unfold listItems
    rw [hMidTodos]
    rw [List.filter_map]
    have hpg1 : ((fun t => t.listId == l2) ∘ fkFn dels) =
        (fun (t : Todo) => t.listId == l2) := by
      funext t
      simp [Function.comp, fkFn_listId]
    rw [hpg1]
    rw [List.filter_filter]
    rw [List.filter_map]
    have hpg2 : ((fun a => a.listId == l2 && !dels.contains a.id) ∘ lfn) =
        (fun (t : Todo) => t.listId == l2 && !dels.contains t.id) := by
      funext t
      simp [Function.comp, hll, hlid]
    rw [hpg2]
    have hfc : s.todos.filter (fun t => t.listId == l2 && !dels.contains t.id) =
        s.todos.filter (fun t => t.listId == l2) := by
      apply List.filter_congr
      intro t ht
      by_cases hpl : (t.listId == l2) = true
      · have hnd : (dels.contains t.id) = false := by
          by_cases hc : (dels.contains t.id) = true
          · exfalso
            have hL : t.listId = L := hdelL t ht (by simpa using hc)
            have hlleq : t.listId = l2 := by simpa using hpl
            rw [hL] at hlleq
            exact hl2 hlleq.symm
          · simpa using hc
        rw [hpl, hnd]
        rfl
      · have hpl2 : (t.listId == l2) = false := by simpa using hpl
        rw [hpl2]
        rfl
    rw [hfc, List.map_map]
    rfl
  refine ⟨nodupIds_map (compact_todos _ _ hnMid) (compactFn_id _) hnMid, ?_, ?_⟩
  · intro l2 _
    by_cases hl2 : l2 = L
    · subst hl2
      exact compact_contig _ _ hnMid
    · unfold contigAt
      rw [compact_listItems_other _ _ _ hnMid hl2, hliMid l2 hl2,
        List.map_map, List.length_map]
      have hcp : ((fun t => t.position) ∘ (fun t => fkFn dels (lfn t))) =
          (fun (t : Todo) => t.position) := by
        funext t
        simp [Function.comp, fkFn_position, hlp]
      rw [hcp]
      have hc2 := contigAt_of_posContig hpc l2
      unfold contigAt at hc2
      exact hc2
  · intro u2 hu2
    rw [compact_todos _ _ hnMid] at hu2
    rcases List.mem_map.mp hu2 with ⟨u1, hu1, rfl⟩
    rw [hMidTodos] at hu1
    rcases List.mem_map.mp hu1 with ⟨w, hw, rfl⟩
    rcases List.mem_filter.mp hw with ⟨hw1, hw2⟩
    rcases List.mem_map.mp hw1 with ⟨u0, hu0, rfl⟩
    rcases hp2 : (compactFn (sortPos (listItems (fkNullParents (removeTodos sPre dels)
        dels) L)) (fkFn dels (lfn u0))).parentId with _ | pv
    · simp [parentOkB, hp2]
    · rw [compactFn_parentId] at hp2
      rcases fkFn_parent_some hp2 with ⟨hlf, hnotdel⟩
      have hu0p : u0.parentId = some pv := hlpar u0 pv hlf
      rcases (parentOkB_iff hu0p).mp (hpw u0 hu0) with ⟨x, hx, hxid, hxl⟩
      have hp2full : (compactFn (sortPos (listItems (fkNullParents (removeTodos sPre dels)
          dels) L)) (fkFn dels (lfn u0))).parentId = some pv := by
        rw [compactFn_parentId]
        exact hp2
      rw [parentOkB_iff hp2full]
      -- the witness row survives the whole chain
      have hxPre : lfn x ∈ sPre.todos := by
        rw [hPre]
        exact List.mem_map_of_mem _ hx
      have hxkeep : (!(dels.contains (lfn x).id)) = true := by
        rw [hlid, hxid]
        simp only [Bool.not_eq_true']
        simpa using hnotdel
      have hxMid : fkFn dels (lfn x) ∈ (fkNullParents (removeTodos sPre dels) dels).todos := by
        rw [hMidTodos]
        apply List.mem_map_of_mem
        apply List.mem_filter.mpr
        refine ⟨?_, hxkeep⟩
        rw [hPre] at hxPre
        exact hxPre
      refine ⟨compactFn (sortPos (listItems (fkNullParents (removeTodos sPre dels) dels) L))
        (fkFn dels (lfn x)), ?_, ?_, ?_⟩
      · rw [compact_todos _ _ hnMid]
        exact List.mem_map_of_mem _ hxMid
      · rw [compactFn_id, fkFn_id, hlid]
        exact hxid
      · rw [compactFn_listId, fkFn_listId, hll, compactFn_listId, fkFn_listId, hll]
        exact hxl

theorem delete_inv {tid : Nat} {c : Bool} {s : Store} {out : DeleteOut} {s2 : Store}
    (h : deleteTodo tid c s = (.ok out, s2))
    (hn : NodupIds s) (hpc : PosContig s) (hpw : ParentWF s) :
    NodupIds s2 ∧ PosContig s2 ∧ ParentWF s2 := by
  unfold deleteTodo at h
  rcases hfind : findTodo s tid with _ | target
  · rw [hfind] at h
    exact absurd h (by simp)
  · rw [hfind] at h
    dsimp only at h
    have htmem := (findTodo_eq_some hfind).1
    have htid := (findTodo_eq_some hfind).2
    rcases c with _ | _
    · rw [Prod.mk.injEq] at h
      have hs2 : s2 = compactPositionsTx (fkNullParents (removeTodos
          (liftAll s (descendantIds s tid)) [tid]) [tid]) target.listId := h.2.symm
      rw [hs2]
      apply removeChain_inv (liftAll_todos (descendantIds s tid) s) _ _ _ _ _ hn hpc hpw
      · intro t
        split <;> rfl
      · intro t
        split <;> rfl
      · intro t
        split <;> rfl
      · intro t pv hp
        by_cases hc : ((descendantIds s tid).contains t.id) = true
        · rw [if_pos hc] at hp
          exact absurd hp (by simp [liftTodo])
        · rw [if_neg hc] at hp
          exact hp
      · intro u hu hmem
        simp at hmem
        have hueq : u = target := nodup_id_inj hn hu htmem (by rw [hmem, htid])
        rw [hueq]
    · rw [Prod.mk.injEq] at h
      have hs2 : s2 = compactPositionsTx (fkNullParents
          (removeTodos s (tid :: descendantIds s tid)) (tid :: descendantIds s tid))
          target.listId := h.2.symm
      rw [hs2]
      apply removeChain_inv ((List.map_id s.todos).symm)
        (fun t => rfl) (fun t => rfl) (fun t => rfl) (fun t pv hp => hp) _ hn hpc hpw
      intro u hu hmem
      rcases List.mem_cons.mp hmem with heq | hdesc
      · have hueq : u = target := nodup_id_inj hn hu htmem (by rw [heq, htid])
        rw [hueq]
      · unfold descendantIds at hdesc
        rcases List.mem_map.mp hdesc with ⟨v, hv, hveq⟩
        rcases List.mem_filter.mp hv with ⟨hvm, hvdesc⟩
        have hueq : u = v := nodup_id_inj hn hu hvm hveq.symm
        rw [hueq]
        exact descendant_listId hn hpw hfind hvm hvdesc

theorem runOp_error {o : Op} {s : Store} {e : EngineErr} {s1 : Store}
    (h : opBody o s = (.error e, s1)) : runOp o s = s := by
  unfold runOp
  rw [h]

theorem runOp_ok {o : Op} {s : Store} {u : Unit} {s1 : Store}
    (h : opBody o s = (.ok u, s1)) : runOp o s = s1 := by
  unfold runOp
  rw [h]

theorem c1_step (o : Op) (s : Store) (ha : AllowedC1 o)
    (hn : NodupIds s) (hpc : PosContig s) (hpw : ParentWF s) :
    NodupIds (runOp o s) ∧ PosContig (runOp o s) ∧ ParentWF (runOp o s) := by
  rcases o with inp | ⟨tid, patch⟩ | rows | ⟨tid, c⟩ | lid
  · rcases hc : createTodo inp s with ⟨r1, s1⟩
    rcases r1 with e | t
    · rw [runOp_error (show opBody (.create inp) s = (.error e, s1) by
        simp [opBody, hc, Except.map])]
      exact ⟨hn, hpc, hpw⟩
    · rw [runOp_ok (show opBody (.create inp) s = (.ok (), s1) by
        simp [opBody, hc, Except.map])]
      exact create_inv hc ha hn hpc hpw
  · rcases hc : updateTodo tid patch s with ⟨r1, s1⟩
    rcases r1 with e | t
    · rw [runOp_error (show opBody (.update tid patch) s = (.error e, s1) by
        simp [opBody, hc, Except.map])]
      exact ⟨hn, hpc, hpw⟩
    · rw [runOp_ok (show opBody (.update tid patch) s = (.ok (), s1) by
        simp [opBody, hc, Except.map])]
      exact update_inv hc ha hn hpc hpw
  · rcases hc : updateTodoPositions rows s with ⟨r1, s1⟩
    rcases r1 with e | t
    · rw [runOp_error (show opBody (.bulk rows) s = (.error e, s1) by
        simp [opBody, hc, Except.map])]
      exact ⟨hn, hpc, hpw⟩
    · rw [runOp_ok (show opBody (.bulk rows) s = (.ok (), s1) by
        simp [opBody, hc, Except.map])]
      exact bulk_inv hc hn hpc hpw
  · rcases hc : deleteTodo tid c s with ⟨r1, s1⟩
    rcases r1 with e | t
    · rw [runOp_error (show opBody (.delTodo tid c) s = (.error e, s1) by
        simp [opBody, hc, Except.map])]
      exact ⟨hn, hpc, hpw⟩
    · rw [runOp_ok (show opBody (.delTodo tid c) s = (.ok (), s1) by
        simp [opBody, hc, Except.map])]
      exact delete_inv hc hn hpc hpw
  · exact ha.elim

/-- C1 (amended): starting from a store whose ids are distinct, whose list
positions are contiguous 1..N and whose parent references are well formed,
any sequence of engine operations restricted to createTodo calls whose
supplied position the engine discards (absent, zero or negative),
updateTodo calls whose patch has no position field, updateTodoPositions
batches, and deleteTodo calls — each running in its own transaction, with
failed calls rolled back — preserves all three properties; in particular
every list's positions remain exactly {1,...,N}.  Without the restriction
the claim fails: a successful createTodo or updateTodo carrying an explicit
position writes it verbatim and does not compact. -/
theorem c1_positions_invariant (ops : List Op) (s : Store)
    (hall : ∀ o ∈ ops, AllowedC1 o)
    (hn : NodupIds s) (hpc : PosContig s) (hpw : ParentWF s) :
    NodupIds (runSeq ops s) ∧ PosContig (runSeq ops s) ∧ ParentWF (runSeq ops s) := by
  induction ops generalizing s with
  | nil => exact ⟨hn, hpc, hpw⟩
  | cons o rest ih =>
    have hstep := c1_step o s (hall o (List.mem_cons_self _ _)) hn hpc hpw
    have hrs : runSeq (o :: rest) s = runSeq rest (runOp o s) := rfl
    rw [hrs]
    exact ih (runOp o s) (fun o2 ho2 => hall o2 (List.mem_cons_of_mem _ ho2))
      hstep.1 hstep.2.1 hstep.2.2

theorem c1_positions_invariant_witness :
    (∀ o ∈ ([Op.create ⟨some "x", false, false, none, none, some 1⟩,
        Op.delTodo 1 false] : List Op), AllowedC1 o) ∧
      NodupIds emptyListStore ∧ PosContig emptyListStore ∧ ParentWF emptyListStore ∧
      (NodupIds (runSeq [Op.create ⟨some "x", false, false, none, none, some 1⟩,
          Op.delTodo 1 false] emptyListStore) ∧
        PosContig (runSeq [Op.create ⟨some "x", false, false, none, none, some 1⟩,
          Op.delTodo 1 false] emptyListStore) ∧
        ParentWF (runSeq [Op.create ⟨some "x", false, false, none, none, some 1⟩,
          Op.delTodo 1 false] emptyListStore)) :=
  ⟨by decide, by decide, by decide, by decide,
    c1_positions_invariant
      [Op.create ⟨some "x", false, false, none, none, some 1⟩, Op.delTodo 1 false]
      emptyListStore (by decide) (by decide) (by decide) (by decide)⟩

/-- C1 counterexample: from a well-formed store with one empty list, a
single successful createItem call carrying the explicit position 5 leaves
the list's positions as {5}, not {1}: the claimed invariant does not
survive every successful sequence of the four operations. -/
theorem c1_counterexample :
    NodupIds emptyListStore ∧ PosContig emptyListStore ∧ ParentWF emptyListStore ∧
      (createTodo ⟨some "x", false, false, none, some 5, some 1⟩ emptyListStore).1 =
        .ok ⟨1, "x", false, false, none, false, 5, 1⟩ ∧
      ¬ PosContig (runSeq [Op.create ⟨some "x", false, false, none, some 5, some 1⟩]
        emptyListStore) := by
  decide
